import Mathlib

/-!
Shallow embedding of the scryer job-queue daemon (src/scryer/db.py,
src/scryer/daemon.py, src/scryer/runner.py) and proofs about the claims
of its specification.

The SQLite issue table is modelled as a list of rows; the meta table as an
association list.  SQL TEXT comparison (BINARY collation, a byte-wise
memcmp) coincides with the code-point order on valid UTF-8, which is the
String order used here.  Timestamps are opaque strings that are only ever
compared with this order, exactly as the code compares RFC-3339 text.
-/

namespace Scryer

/-- One row of the `issues` table (schema v2 in db.py, `_create_schema_v2`).
`labels_json` is modelled as the list of labels it encodes. -/
structure IssueRow where
  repo : String
  id : Nat
  title : String
  body : Option String
  url : Option String
  labels : List String
  status : String
  attempt_count : Nat
  lease_until : Option String
  claimed_by : Option String
  branch : Option String
  pr_number : Option Int
  pr_url : Option String
  head_sha : Option String
  last_error : Option String
  last_run_dir : Option String
  created_at : String
  updated_at : Option String
  started_at : Option String
  completed_at : Option String
deriving DecidableEq, Repr

/-- The payload shape `Poller` / `upsert_polled_issues` consumes. -/
structure PolledIssue where
  id : Nat
  title : String
  body : Option String
  url : Option String
  labels : List String
  updated_at : Option String
deriving DecidableEq, Repr

/-- The payload shape `update_issue_details` consumes. -/
structure IssueDetails where
  id : Nat
  title : String
  body : Option String
  url : Option String
  labels : List String
  updated_at : Option String
deriving DecidableEq, Repr

/-- The whole database file: `issues` table plus `meta` table. -/
structure DbState where
  issues : List IssueRow
  meta : List (String × String)
deriving DecidableEq, Repr

def emptyDb : DbState := ⟨[], []⟩

/-- `db.py _meta_key`: scope a meta key by the handle namespace. -/
def metaKey (ns key : String) : String := ns ++ ":" ++ key

/-- Raw meta lookup (`SELECT value FROM meta WHERE key = ?`). -/
def getMetaRaw (k : String) (s : DbState) : Option String :=
  (s.meta.find? (fun kv => kv.1 = k)).map (fun kv => kv.2)

/-- Raw meta upsert (`INSERT ... ON CONFLICT(key) DO UPDATE SET value`). -/
def setMetaRaw (k v : String) (s : DbState) : DbState :=
  if s.meta.any (fun kv => kv.1 = k) then
    { s with meta := s.meta.map (fun kv => if kv.1 = k then (k, v) else kv) }
  else
    { s with meta := s.meta ++ [(k, v)] }

/-- `db.py get_meta`. -/
def getMeta (ns key : String) (s : DbState) : Option String :=
  getMetaRaw (metaKey ns key) s

/-- `db.py set_meta`. -/
def setMeta (ns key value : String) (s : DbState) : DbState :=
  setMetaRaw (metaKey ns key) value s

/-- The whitespace class of Python `str.split()` / `str.strip()`
restricted to the ASCII whitespace that can occur here. -/
def isPySpace (c : Char) : Bool :=
  c = ' ' || c = '\t' || c = '\n' || c = '\x0b' || c = '\x0c' || c = '\r'

/-- Decimal digits to the number they denote, most significant first. -/
def digitsToNat (l : List Char) : Nat :=
  l.foldl (fun n c => n * 10 + (c.toNat - 48)) 0

/-- Python `int(str)` as used on stored counter values, with the
`ValueError`-to-zero fallback of `get_daily_done_count` and
`increment_daily_done_count`: surrounding whitespace stripped, optional
sign, at least one digit. -/
def pyIntOr0 (v : String) : Int :=
  let t := ((v.data.dropWhile isPySpace).reverse.dropWhile isPySpace).reverse
  match t with
  | '-' :: rest =>
      if !rest.isEmpty && rest.all Char.isDigit then -(digitsToNat rest : Int) else 0
  | '+' :: rest =>
      if !rest.isEmpty && rest.all Char.isDigit then (digitsToNat rest : Int) else 0
  | _ =>
      if !t.isEmpty && t.all Char.isDigit then (digitsToNat t : Int) else 0

/-- `db.py get_daily_done_count`. -/
def getDailyDoneCount (ns date : String) (s : DbState) : Int :=
  match getMeta ns ("done_count:" ++ date) s with
  | none => 0
  | some v => pyIntOr0 v

/-- `db.py increment_daily_done_count`: read-modify-write in one
transaction; returns the new count. -/
def incrementDailyDoneCount (ns date : String) (s : DbState) : Int × DbState :=
  let k := metaKey ns ("done_count:" ++ date)
  let current := (match getMetaRaw k s with | none => 0 | some v => pyIntOr0 v) + 1
  (current, setMetaRaw k (toString current) s)

/-- Key predicate of the `(repo, id)` primary key. -/
def keyIs (ns : String) (issueId : Nat) (r : IssueRow) : Bool :=
  r.repo = ns && r.id = issueId

/-- The per-payload body of `upsert_polled_issues`: insert a pending row,
or on `(repo, id)` conflict update title, body (kept when the new value is
null, via COALESCE), url, labels and updated_at. -/
def upsertOne (ns now : String) (p : PolledIssue) (rows : List IssueRow) : List IssueRow :=
  if rows.any (keyIs ns p.id) then
    rows.map (fun r =>
      if keyIs ns p.id r then
        { r with
          title := p.title
          body := p.body.orElse (fun _ => r.body)
          url := p.url
          labels := p.labels
          updated_at := p.updated_at }
      else r)
  else
    rows ++ [{
      repo := ns, id := p.id, title := p.title, body := p.body, url := p.url,
      labels := p.labels, status := "pending", attempt_count := 0,
      lease_until := none, claimed_by := none, branch := none, pr_number := none,
      pr_url := none, head_sha := none, last_error := none, last_run_dir := none,
      created_at := now, updated_at := p.updated_at, started_at := none,
      completed_at := none }]

/-- `db.py upsert_polled_issues`: one transaction over the payload list. -/
def upsertPolledIssues (ns now : String) (ps : List PolledIssue) (s : DbState) : DbState :=
  { s with issues := ps.foldl (fun rows p => upsertOne ns now p rows) s.issues }

/-- `db.py update_issue_details`: overwrite descriptive fields only. -/
def updateIssueDetails (ns : String) (d : IssueDetails) (s : DbState) : DbState :=
  { s with issues := s.issues.map (fun r =>
      if keyIs ns d.id r then
        { r with
          title := d.title, body := d.body, url := d.url,
          labels := d.labels, updated_at := d.updated_at }
      else r) }

/-- Strict byte-wise text order on char lists: SQLite compares TEXT
values with the BINARY collation (memcmp), which on valid UTF-8 is the
code-point lexicographic order. -/
def charsLt : List Char → List Char → Bool
  | _, [] => false
  | [], _ :: _ => true
  | a :: as, b :: bs =>
      a.toNat < b.toNat || (a.toNat = b.toNat && charsLt as bs)

/-- SQLite `<` on two TEXT values. -/
def textLt (a b : String) : Bool := charsLt a.data b.data

/-- The WHERE clause of `requeue_expired_leases` restricted to one row:
`status = 'running' AND lease_until IS NOT NULL AND lease_until < now`
(SQL NULL comparison makes the IS NOT NULL guard explicit). -/
def leaseExpired (now : String) (r : IssueRow) : Bool :=
  r.status = "running" &&
    (match r.lease_until with
     | some t => textLt t now
     | none => false)

/-- `db.py requeue_expired_leases`: returns the SQLite rowcount and the
new state. -/
def requeueExpiredLeases (ns now : String) (s : DbState) : Int × DbState :=
  ((s.issues.countP (fun r => r.repo = ns && leaseExpired now r) : Int),
   { s with issues := s.issues.map (fun r =>
       if r.repo = ns && leaseExpired now r then
         { r with
           status := "pending"
           lease_until := none
           claimed_by := none
           last_error := some (r.last_error.getD "lease expired") }
       else r) })

/-- Row filter of the SELECT in `claim_next_pending`:
`repo = ns AND status = 'pending' AND attempt_count < max_attempts`. -/
def claimEligible (ns : String) (maxAttempts : Int) (r : IssueRow) : Bool :=
  r.repo = ns && r.status = "pending" && ((r.attempt_count : Int) < maxAttempts)

/-- `ORDER BY COALESCE(updated_at, created_at) DESC, id ASC` sort key. -/
def claimSortKey (r : IssueRow) : String :=
  r.updated_at.getD r.created_at

/-- `a` is ordered strictly before `b` by the claim ORDER BY clause. -/
def claimBetter (a b : IssueRow) : Bool :=
  textLt (claimSortKey b) (claimSortKey a) ||
    (claimSortKey a = claimSortKey b && a.id < b.id)

/-- The `SELECT ... ORDER BY ... LIMIT 1` of `claim_next_pending`:
the eligible row that every other eligible row sorts after. -/
def selectTopPending (ns : String) (maxAttempts : Int) (rows : List IssueRow) :
    Option IssueRow :=
  (rows.filter (claimEligible ns maxAttempts)).foldl
    (fun acc r =>
      match acc with
      | none => some r
      | some b => if claimBetter r b then some r else some b)
    none

/-- The UPDATE of `_claim_issue`: transition to running, set lease fields
and started_at, increment attempt_count. -/
def applyClaim (startedAt leaseUntil workerId : String) (r : IssueRow) : IssueRow :=
  { r with
    status := "running"
    started_at := some startedAt
    lease_until := some leaseUntil
    claimed_by := some workerId
    attempt_count := r.attempt_count + 1 }

/-- `db.py claim_next_pending`: one BEGIN IMMEDIATE transaction; selects
the top pending row and transitions it (the conditional-update retry loop
of the source is the lost-race guard, which a serialised transaction never
takes).  Returns the post-state row. -/
def claimNextPending (ns workerId : String) (maxAttempts : Int)
    (leaseUntil startedAt : String) (s : DbState) : Option IssueRow × DbState :=
  match selectTopPending ns maxAttempts s.issues with
  | none => (none, s)
  | some r =>
      (some (applyClaim startedAt leaseUntil workerId r),
       { s with issues := s.issues.map (fun q =>
           if keyIs ns r.id q then applyClaim startedAt leaseUntil workerId q else q) })

/-- `db.py claim_pending_by_id`: the same transition restricted to one id. -/
def claimPendingById (ns : String) (issueId : Nat) (workerId : String)
    (maxAttempts : Int) (leaseUntil startedAt : String) (s : DbState) :
    Option IssueRow × DbState :=
  match s.issues.find? (fun r => keyIs ns issueId r && claimEligible ns maxAttempts r) with
  | none => (none, s)
  | some r =>
      (some (applyClaim startedAt leaseUntil workerId r),
       { s with issues := s.issues.map (fun q =>
           if keyIs ns r.id q then applyClaim startedAt leaseUntil workerId q else q) })

/-- `db.py mark_done`. -/
def markDone (ns : String) (issueId : Nat) (prNumber : Option Int)
    (prUrl : Option String) (branch : String) (headSha : Option String)
    (runDir : Option String) (completedAt : String) (s : DbState) : DbState :=
  { s with issues := s.issues.map (fun r =>
      if keyIs ns issueId r then
        { r with
          status := "done", pr_number := prNumber, pr_url := prUrl,
          branch := some branch, head_sha := headSha,
          lease_until := none, claimed_by := none,
          completed_at := some completedAt, last_error := none,
          last_run_dir := runDir }
      else r) }

/-- Common body of `mark_failed`, `mark_timeout` and `mark_skipped`. -/
def markWith (statusTag ns : String) (issueId : Nat) (error : String)
    (runDir : Option String) (completedAt : String) (s : DbState) : DbState :=
  { s with issues := s.issues.map (fun r =>
      if keyIs ns issueId r then
        { r with
          status := statusTag, lease_until := none, claimed_by := none,
          completed_at := some completedAt, last_error := some error,
          last_run_dir := runDir }
      else r) }

/-- `db.py mark_failed`. -/
def markFailed (ns : String) (issueId : Nat) (error : String)
    (runDir : Option String) (completedAt : String) (s : DbState) : DbState :=
  markWith "failed" ns issueId error runDir completedAt s

/-- `db.py mark_timeout`. -/
def markTimeout (ns : String) (issueId : Nat) (error : String)
    (runDir : Option String) (completedAt : String) (s : DbState) : DbState :=
  markWith "timeout" ns issueId error runDir completedAt s

/-- `db.py mark_skipped`. -/
def markSkipped (ns : String) (issueId : Nat) (reason : String)
    (runDir : Option String) (completedAt : String) (s : DbState) : DbState :=
  markWith "skipped" ns issueId reason runDir completedAt s

/-- SQLite default LIKE character comparison: ASCII-case-insensitive
(Char.toLower folds exactly the ASCII range). -/
def likeCharEq (p c : Char) : Bool := p.toLower = c.toLower

/-- SQLite LIKE matching (no ESCAPE clause): a percent sign matches any
character sequence, an underscore matches exactly one character, any other
pattern character matches ASCII-case-insensitively.  Fuel-structured so
the kernel can evaluate it; the wrapper supplies enough fuel. -/
def likeMatchF : Nat → List Char → List Char → Bool
  | 0, _, _ => false
  | fuel + 1, ps, cs =>
    match ps, cs with
    | [], [] => true
    | [], _ :: _ => false
    | '%' :: ps2, [] => likeMatchF fuel ps2 []
    | '%' :: ps2, c :: cs2 =>
        likeMatchF fuel ps2 (c :: cs2) || likeMatchF fuel ('%' :: ps2) cs2
    | '_' :: ps2, c :: cs2 =>
        let _ := c
        likeMatchF fuel ps2 cs2
    | '_' :: _, [] => false
    | p :: ps2, c :: cs2 => likeCharEq p c && likeMatchF fuel ps2 cs2
    | _ :: _, [] => false

/-- `expr LIKE pattern` on whole strings. -/
def likeMatch (pat target : String) : Bool :=
  likeMatchF (pat.data.length + target.data.length + 1) pat.data target.data

/-- `db.py clear_namespace_state`: delete the issue rows of the handle
namespace and every meta row whose key matches the unescaped pattern
`<namespace>:%`; returns `(issues_deleted, meta_deleted)` rowcounts. -/
def clearNamespaceState (ns : String) (s : DbState) : (Int × Int) × DbState :=
  let metaPat := ns ++ ":%"
  (((s.issues.countP (fun r => r.repo = ns) : Int),
    (s.meta.countP (fun kv => likeMatch metaPat kv.1) : Int)),
   { issues := s.issues.filter (fun r => !(r.repo = ns : Bool)),
     meta := s.meta.filter (fun kv => !likeMatch metaPat kv.1) })

/-- One Store write operation, as issued through a `Database` handle.
Timestamps the source reads from the clock (`utcnow_iso`, the lease
deadline) are carried as operation arguments. -/
inductive StoreOp where
  | upsertPolled (now : String) (ps : List PolledIssue)
  | updateDetails (d : IssueDetails)
  | requeueExpired (now : String)
  | claimNext (workerId : String) (maxAttempts : Int) (leaseUntil startedAt : String)
  | claimById (issueId : Nat) (workerId : String) (maxAttempts : Int)
      (leaseUntil startedAt : String)
  | opMarkDone (issueId : Nat) (prNumber : Option Int) (prUrl : Option String)
      (branch : String) (headSha : Option String) (runDir : Option String)
      (completedAt : String)
  | opMarkFailed (issueId : Nat) (error : String) (runDir : Option String)
      (completedAt : String)
  | opMarkTimeout (issueId : Nat) (error : String) (runDir : Option String)
      (completedAt : String)
  | opMarkSkipped (issueId : Nat) (reason : String) (runDir : Option String)
      (completedAt : String)
  | opSetMeta (key value : String)
  | opIncrementDaily (date : String)
  | opClear

/-- Apply one Store operation through a handle scoped to `ns`, dropping
the returned value. -/
def applyOp (ns : String) (op : StoreOp) (s : DbState) : DbState :=
  match op with
  | .upsertPolled now ps => upsertPolledIssues ns now ps s
  | .updateDetails d => updateIssueDetails ns d s
  | .requeueExpired now => (requeueExpiredLeases ns now s).2
  | .claimNext w maxA lu sa => (claimNextPending ns w maxA lu sa s).2
  | .claimById i w maxA lu sa => (claimPendingById ns i w maxA lu sa s).2
  | .opMarkDone i prn pru br sha rd ca => markDone ns i prn pru br sha rd ca s
  | .opMarkFailed i e rd ca => markFailed ns i e rd ca s
  | .opMarkTimeout i e rd ca => markTimeout ns i e rd ca s
  | .opMarkSkipped i e rd ca => markSkipped ns i e rd ca s
  | .opSetMeta k v => setMeta ns k v s
  | .opIncrementDaily d => (incrementDailyDoneCount ns d s).2
  | .opClear => (clearNamespaceState ns s).2

/-- A sequence of Store operations, each through a handle of its own
namespace, applied in order. -/
def applyOps (ops : List (String × StoreOp)) (s : DbState) : DbState :=
  ops.foldl (fun acc p => applyOp p.1 p.2 acc) s

/-! ### Daemon (daemon.py) -/

/-- `daemon.py CycleResult`. -/
structure CycleResult where
  processed : Bool
  status : Option String
deriving DecidableEq, Repr

/-- `daemon.py DaemonService._aggregate_status`. -/
def aggregateStatus (statuses : List String) : Option String :=
  if statuses.isEmpty then none
  else if statuses.all (fun st => st = "failed" || st = "timeout") then
    if statuses.contains "failed" then some "failed" else some "timeout"
  else if statuses.contains "done" then some "done"
  else if statuses.contains "skipped" then some "skipped"
  else if statuses.contains "timeout" then some "timeout"
  else if statuses.contains "failed" then some "failed"
  else statuses.head?

/-- `daemon.py Database(self.config.db_path)` in
`_handle_issue_with_worker_db` passes no `repo_namespace`, so the worker
handle is scoped by the default of `Database.__init__` (db.py). -/
def workerDbNamespace : String := "default"

/-- `daemon.py _process_claimed_issues`.  The per-issue handler
(`_handle_issue` with its GitHub, runner and PR-manager collaborators) is
an oracle parameter; thread completion order is modelled as submission
order, which the aggregate does not depend on.  The source keeps a status
only when it is truthy (neither None nor the empty string). -/
def processClaimedIssues
    (handler : IssueRow → DbState → CycleResult × DbState)
    (issues : List IssueRow) (s : DbState) : CycleResult × DbState :=
  match issues with
  | [issue] => handler issue s
  | _ =>
    let step := fun (acc : List CycleResult × DbState) (issue : IssueRow) =>
      let hr := handler issue acc.2
      (acc.1 ++ [hr.1], hr.2)
    let folded := issues.foldl step ([], s)
    let statuses := folded.1.filterMap (fun r =>
      match r.status with
      | some st => if st = "" then none else some st
      | none => none)
    (⟨folded.1.any (fun r => r.processed), aggregateStatus statuses⟩, folded.2)

/-- `daemon.py _claim_pending_batch`: claim up to the limit in sequence,
stopping at the first null claim. -/
def claimPendingBatch (ns workerId : String) (maxAttempts : Int)
    (leaseUntil startedAt : String) :
    Nat → DbState → List IssueRow × DbState
  | 0, s => ([], s)
  | n + 1, s =>
    match claimNextPending ns workerId maxAttempts leaseUntil startedAt s with
    | (none, s2) => ([], s2)
    | (some r, s2) =>
      let rest := claimPendingBatch ns workerId maxAttempts leaseUntil startedAt n s2
      (r :: rest.1, rest.2)

/-- The configuration fields the cycle logic consumes (config.py). -/
structure DaemonConfig where
  repo_namespace : String
  worker_id : String
  max_attempts : Int
  max_concurrent : Int
  max_issues_per_day : Int
deriving Repr

/-- `daemon.py _daily_remaining_capacity`. -/
def dailyRemainingCapacity (cfg : DaemonConfig) (today : String) (s : DbState) : Int :=
  max (cfg.max_issues_per_day - getDailyDoneCount cfg.repo_namespace today s) 0

/-- `daemon.py _claim_limit_for_cycle`. -/
def claimLimitForCycle (cfg : DaemonConfig) (today : String) (s : DbState) : Int :=
  let dr := dailyRemainingCapacity cfg today s
  if dr ≤ 0 then 0 else min (max 1 cfg.max_concurrent) dr

/-- `daemon.py run_once` without a requested issue id.  The poller output
and the clock readings are parameters; per-issue handling is the oracle
`handler`. -/
def runOnceNoTarget (cfg : DaemonConfig) (polled : List PolledIssue)
    (pollNow now today leaseUntil startedAt : String)
    (handler : IssueRow → DbState → CycleResult × DbState)
    (s : DbState) : CycleResult × DbState :=
  let s1 := upsertPolledIssues cfg.repo_namespace pollNow polled s
  let s2 := (requeueExpiredLeases cfg.repo_namespace now s1).2
  let limit := claimLimitForCycle cfg today s2
  if limit ≤ 0 then (⟨false, none⟩, s2)
  else
    let batch := claimPendingBatch cfg.repo_namespace cfg.worker_id cfg.max_attempts
      leaseUntil startedAt limit.toNat s2
    if batch.1.isEmpty then (⟨false, none⟩, batch.2)
    else processClaimedIssues handler batch.1 batch.2

/-! ### Runner title handling (runner.py) -/

/-- Python `str.split()` (no separator): maximal runs of non-whitespace,
empties discarded.  `acc` is the word in progress, reversed. -/
def pyWordsAux : List Char → List Char → List (List Char)
  | [], acc => if acc.isEmpty then [] else [acc.reverse]
  | c :: cs, acc =>
    if isPySpace c then
      if acc.isEmpty then pyWordsAux cs [] else acc.reverse :: pyWordsAux cs []
    else pyWordsAux cs (c :: acc)

def pyWords (l : List Char) : List (List Char) := pyWordsAux l []

/-- `" ".join(words)`. -/
def joinSpace : List (List Char) → List Char
  | [] => []
  | [w] => w
  | w :: ws => w ++ ' ' :: joinSpace ws

/-- `" ".join(title.split())` from `_short_title`. -/
def pyCollapse (s : String) : String := String.mk (joinSpace (pyWords s.data))

/-- Python `str.rstrip()` over the same whitespace class. -/
def pyRstrip (s : String) : String :=
  String.mk (s.data.reverse.dropWhile isPySpace).reverse

/-- `runner.py _short_title`. -/
def shortTitle (title : String) (maxLen : Nat := 72) : String :=
  let clean := pyCollapse title
  if clean.length ≤ maxLen then clean
  else pyRstrip (String.mk (clean.data.take (maxLen - 3))) ++ "..."

/-- The commit message built in `CodexRunner.run`. -/
def commitMessage (issueId : Nat) (title : String) : String :=
  "Fix #" ++ toString issueId ++ ": " ++ shortTitle title

/-! ### Definitions written from the claims, for comparison with the code -/

/-- Follows the words of claim C2: the aggregate is done if any succeeded,
else skipped if any, else timeout if any, else failed; null for an empty
status list. -/
def specAggregateStatus (statuses : List String) : Option String :=
  if statuses = [] then none
  else if "done" ∈ statuses then some "done"
  else if "skipped" ∈ statuses then some "skipped"
  else if "timeout" ∈ statuses then some "timeout"
  else some "failed"

/-- Follows the words of claim C9 for titles whose collapsed form exceeds
72 characters: the collapsed title truncated so that with the three-dot
suffix the result occupies the 72-character budget. -/
def claimShortTitle (title : String) : String :=
  let collapsed := pyCollapse title
  if collapsed.length ≤ 72 then collapsed
  else String.mk (collapsed.data.take 69) ++ "..."

/-! ### Concrete fixtures for witnesses and counterexamples -/

/-- A pending row used to build concrete states. -/
def baseRow : IssueRow :=
  { repo := "ns", id := 1, title := "t1", body := none, url := none, labels := [],
    status := "pending", attempt_count := 0, lease_until := none, claimed_by := none,
    branch := none, pr_number := none, pr_url := none, head_sha := none,
    last_error := none, last_run_dir := none, created_at := "2025-01-01T00:00:00Z",
    updated_at := some "2025-01-02T00:00:00Z", started_at := none, completed_at := none }

/-- A second pending row, more recently updated than `baseRow`. -/
def baseRow2 : IssueRow :=
  { baseRow with id := 2, updated_at := some "2025-01-03T00:00:00Z" }

/-- A running row holding a lease. -/
def runningRow : IssueRow :=
  { baseRow with
    id := 3
    status := "running"
    attempt_count := 1
    lease_until := some "2025-01-04T00:00:00Z"
    claimed_by := some "w"
    started_at := some "2025-01-03T12:00:00Z" }

/-- A namespace as the cli derives it for a repository with an origin
remote; in particular it is not the `Database.__init__` default. -/
def c1Namespace : String := "github.com-acme-widgets"

/-- Issue 7 as the daemon Store handle sees it right after claiming it in
a batch: running under the daemon namespace. -/
def c1ClaimedRow : IssueRow :=
  { baseRow with
    repo := c1Namespace
    id := 7
    status := "running"
    attempt_count := 1
    lease_until := some "2025-01-04T00:00:00Z"
    claimed_by := some "host-1" }

/-- The database file contents at the moment the batch worker finishes
issue 7 and calls mark_done through its own handle. -/
def c1Db : DbState := ⟨[c1ClaimedRow], []⟩

/-- Handler producing the per-issue outcomes of the C2 counterexample
batch: issue 1 fails, issue 2 times out, no Store writes modelled. -/
def c2Handler (issue : IssueRow) (s : DbState) : CycleResult × DbState :=
  if issue.id = 1 then (⟨true, some "failed"⟩, s) else (⟨true, some "timeout"⟩, s)

/-- A handler that marks every issue done, for witnesses. -/
def doneHandler (issue : IssueRow) (s : DbState) : CycleResult × DbState :=
  let _ := issue
  (⟨true, some "done"⟩, s)

/-- Title whose collapsed form is 76 characters long with a space at
index 68, the truncation boundary of `_short_title`. -/
def c9Title : String := String.mk (List.replicate 68 'a') ++ " bcdefgh"

/-- The namespace the cli derives for a repository named my_repo. -/
def c10Namespace : String := "github.com-acme-my_repo"

/-- The namespace the cli derives for a sibling repository named
my-repo, sharing the database file. -/
def c10OtherNamespace : String := "github.com-acme-my-repo"

/-- One issue row in each of the two namespaces. -/
def c10MineRow : IssueRow := { baseRow with repo := c10Namespace, id := 1 }

def c10OtherRow : IssueRow := { baseRow with repo := c10OtherNamespace, id := 1 }

/-- Shared database file holding state for both repositories, with one
daily-counter meta row each. -/
def c10Db : DbState :=
  ⟨[c10MineRow, c10OtherRow],
   [(c10Namespace ++ ":done_count:2025-06-01", "2"),
    (c10OtherNamespace ++ ":done_count:2025-06-01", "3")]⟩

/-- The `(repo, id)` primary-key uniqueness of the issues table, as an
executable check. -/
def distinctKeysB : List IssueRow → Bool
  | [] => true
  | r :: rest =>
      rest.all (fun q => !(q.repo = r.repo && q.id = r.id)) && distinctKeysB rest

/-- The `(repo, id)` primary-key uniqueness of the issues table. -/
def DistinctKeys (rows : List IssueRow) : Prop := distinctKeysB rows = true

instance (rows : List IssueRow) : Decidable (DistinctKeys rows) :=
  inferInstanceAs (Decidable (distinctKeysB rows = true))

/-- Per-row shape of the lease/claim invariant, strengthened with the
closed status alphabet so that it is inductive. -/
def InvRow (r : IssueRow) : Prop :=
  (r.status = "pending" ∨ r.status = "running" ∨ r.status = "done" ∨
    r.status = "failed" ∨ r.status = "timeout" ∨ r.status = "skipped") ∧
  ((r.status = "running" ∧ r.lease_until ≠ none ∧ r.claimed_by ≠ none) ∨
    (r.status ≠ "running" ∧ r.lease_until = none ∧ r.claimed_by = none))

/-- The lease/claim invariant over a whole database state. -/
def Inv (s : DbState) : Prop := ∀ r ∈ s.issues, InvRow r

/-- Polled payload used in concrete witness states. -/
def c4Polled : PolledIssue :=
  ⟨1, "t", none, none, [], some "2025-01-02T00:00:00Z"⟩

/-- A concrete operation sequence: poll one issue in, then claim it. -/
def c4Ops : List (String × StoreOp) :=
  [("ns", .upsertPolled "2025-01-01T00:00:00Z" [c4Polled]),
   ("ns", .claimNext "w" 2 "L" "S")]

/-- The row the sequence c4Ops produces. -/
def c4Row : IssueRow :=
  { repo := "ns", id := 1, title := "t", body := none, url := none, labels := [],
    status := "running", attempt_count := 1, lease_until := some "L",
    claimed_by := some "w", branch := none, pr_number := none, pr_url := none,
    head_sha := none, last_error := none, last_run_dir := none,
    created_at := "2025-01-01T00:00:00Z", updated_at := some "2025-01-02T00:00:00Z",
    started_at := some "S", completed_at := none }

/-- The row opMarkFailed produces from baseRow, used in witnesses. -/
def c3MarkedRow : IssueRow :=
  { baseRow with
    status := "failed"
    lease_until := none
    claimed_by := none
    completed_at := some "T"
    last_error := some "err"
    last_run_dir := none }

/-- First upsert payload of the C7 witness. -/
def c7P1 : PolledIssue := ⟨1, "t1", some "b1", some "u1", ["l1"], some "T1"⟩

/-- Second upsert payload of the C7 witness: same id, null body. -/
def c7P2 : PolledIssue := ⟨1, "t2", none, some "u2", ["l2"], some "T2"⟩

/-- Pairwise-distinct ids, the shape the eligible rows of one namespace
take under the primary-key invariant. -/
def distinctIdsB : List IssueRow → Bool
  | [] => true
  | r :: rest => rest.all (fun q => !(q.id = r.id)) && distinctIdsB rest

/-- Concrete daemon configuration for witnesses: namespace ns, worker w,
max_attempts 2, max_concurrent 2, max_issues_per_day 10. -/
def c8Cfg : DaemonConfig := ⟨"ns", "w", 2, 2, 10⟩

/-! ## Theorems -/

/-- Claim C1 (code bug evaluation): the batch worker handle created by
_handle_issue_with_worker_db is scoped to the default namespace, so when
the daemon namespace is the cli-derived one, the mark_done the worker
performs matches no row and the claimed row stays running; the same write
through a handle scoped like the daemon Store handle does reach it. -/
theorem c1_worker_db_namespace :
    markDone workerDbNamespace 7 (some 11) (some "https://pr") "codex/issue-7"
      (some "sha") (some "run") "2025-01-03T13:00:00Z" c1Db = c1Db ∧
    c1ClaimedRow.status = "running" ∧
    c1Namespace ≠ workerDbNamespace ∧
    (markDone c1Namespace 7 (some 11) (some "https://pr") "codex/issue-7"
      (some "sha") (some "run") "2025-01-03T13:00:00Z" c1Db).issues.map
        (fun r => r.status) = ["done"] := by decide

/-- Claim C10 (code bug evaluation): clear_namespace_state on the
namespace of repository my_repo deletes and counts the daily-counter meta
row of the sibling namespace of repository my-repo, because the SQL LIKE
pattern built from the namespace leaves the underscore wildcard
unescaped. -/
theorem c10_clear_crosses_namespaces :
    (clearNamespaceState c10Namespace c10Db).1 = (1, 2) ∧
    (clearNamespaceState c10Namespace c10Db).2.issues = [c10OtherRow] ∧
    (clearNamespaceState c10Namespace c10Db).2.meta = [] ∧
    likeMatch (c10Namespace ++ ":%")
      (c10OtherNamespace ++ ":done_count:2025-06-01") = true := by decide

/-- Claim C2, counterexample: a batch of two issues whose per-issue
outcomes are failed and timeout aggregates to failed, while the claimed
priority order (done, skipped, timeout, failed) demands timeout. -/
theorem c2_aggregate_cex :
    (processClaimedIssues c2Handler [baseRow, baseRow2] emptyDb).1.status = some "failed" ∧
    (c2Handler baseRow emptyDb).1.status = some "failed" ∧
    (c2Handler baseRow2 emptyDb).1.status = some "timeout" ∧
    specAggregateStatus ["failed", "timeout"] = some "timeout" ∧
    (processClaimedIssues c2Handler [baseRow, baseRow2] emptyDb).1.status ≠
      specAggregateStatus ["failed", "timeout"] := by decide

/-- Claim C9, counterexample: when the 69-character truncation boundary
falls just after a space, _short_title strips that trailing space before
appending the suffix, so the commit message differs from the claimed
collapse-then-truncate-at-72 form. -/
theorem c9_short_title_cex :
    commitMessage 7 c9Title ≠ "Fix #7: " ++ claimShortTitle c9Title := by decide

/-- Claim C2, amended: over the terminal status alphabet the aggregate is
done if any succeeded, else skipped if any, else failed if any failed,
else timeout; and it is null for an empty status list. -/
theorem c2_aggregate_amended (statuses : List String)
    (h : ∀ st ∈ statuses, st = "done" ∨ st = "skipped" ∨ st = "timeout" ∨ st = "failed") :
    aggregateStatus statuses =
      (if statuses = [] then none
       else if "done" ∈ statuses then some "done"
       else if "skipped" ∈ statuses then some "skipped"
       else if "failed" ∈ statuses then some "failed"
       else some "timeout") := by
  by_cases he : statuses = []
  · subst he; simp [aggregateStatus]
  · by_cases hd : "done" ∈ statuses
    · have hall : statuses.all (fun st => st = "failed" || st = "timeout") = false := by
        rw [Bool.eq_false_iff]
        intro hx
        rw [List.all_eq_true] at hx
        have := hx "done" hd
        simp at this
      simp [aggregateStatus, he, hall, hd, List.contains]
    · by_cases hs : "skipped" ∈ statuses
      · have hall : statuses.all (fun st => st = "failed" || st = "timeout") = false := by
          rw [Bool.eq_false_iff]
          intro hx
          rw [List.all_eq_true] at hx
          have := hx "skipped" hs
          simp at this
        simp [aggregateStatus, he, hall, hd, hs, List.contains]
      · have hall : statuses.all (fun st => st = "failed" || st = "timeout") = true := by
          rw [List.all_eq_true]
          intro st hst
          rcases h st hst with h1 | h1 | h1 | h1
          · exact absurd (h1 ▸ hst) hd
          · exact absurd (h1 ▸ hst) hs
          · simp [h1]
          · simp [h1]
        by_cases hf : "failed" ∈ statuses
        · simp [aggregateStatus, he, hall, hd, hs, hf, List.contains]
        · simp [aggregateStatus, he, hall, hd, hs, hf, List.contains]

theorem c2_aggregate_amended_witness :
    ((∀ st ∈ (["skipped", "failed"] : List String),
        st = "done" ∨ st = "skipped" ∨ st = "timeout" ∨ st = "failed")) ∧
    aggregateStatus ["skipped", "failed"] = some "skipped" := by
  refine ⟨by decide, ?_⟩
  rw [c2_aggregate_amended ["skipped", "failed"] (by decide)]
  decide

/-- Claim C9, amended: the commit message is Fix #id: short_title where
short_title is the whitespace-collapsed title when that is at most 72
characters, and otherwise its first 69 characters with trailing
whitespace removed followed by the three-dot suffix; the result never
exceeds 72 characters. -/
theorem c9_commit_message (issueId : Nat) (title : String) :
    commitMessage issueId title = "Fix #" ++ toString issueId ++ ": " ++ shortTitle title ∧
    ((pyCollapse title).length ≤ 72 → shortTitle title = pyCollapse title) ∧
    (72 < (pyCollapse title).length →
      shortTitle title = pyRstrip (String.mk ((pyCollapse title).data.take 69)) ++ "...") ∧
    (shortTitle title).length ≤ 72 := by
  refine ⟨rfl, ?_, ?_, ?_⟩
  · intro hle
    simp [shortTitle, hle]
  · intro hgt
    rw [shortTitle]
    simp [Nat.not_le_of_lt hgt]
  · by_cases hle : (pyCollapse title).length ≤ 72
    · simp [shortTitle, hle]
    · rw [shortTitle]
      simp only [hle, if_false]
      have h1 : (pyRstrip (String.mk ((pyCollapse title).data.take 69))).length ≤ 69 := by
        unfold pyRstrip
        show ((List.dropWhile isPySpace
          (String.mk ((pyCollapse title).data.take 69)).data.reverse).reverse).length ≤ 69
        rw [List.length_reverse]
        calc (List.dropWhile isPySpace
            (String.mk ((pyCollapse title).data.take 69)).data.reverse).length
            ≤ ((String.mk ((pyCollapse title).data.take 69)).data.reverse).length :=
              (List.dropWhile_sublist _).length_le
          _ = ((pyCollapse title).data.take 69).length := List.length_reverse _
          _ ≤ 69 := by simp
      have h2 : ∀ a b : String, (a ++ b).length = a.length + b.length := by
        intro a b
        show (a.data ++ b.data).length = a.data.length + b.data.length
        exact List.length_append a.data b.data
      have h3 : ("..." : String).length = 3 := rfl
      rw [h2]
      have h4 : (72 - 3 : Nat) = 69 := rfl
      rw [h4] at *
      omega

theorem c9_commit_message_witness :
    (pyCollapse "hello  world").length ≤ 72 ∧
    shortTitle "hello  world" = pyCollapse "hello  world" ∧
    (shortTitle "hello  world").length ≤ 72 :=
  ⟨by decide, (c9_commit_message 7 "hello  world").2.1 (by decide),
   (c9_commit_message 7 "hello  world").2.2.2⟩

/-- Claim C5: requeue_expired_leases resets exactly the running rows of
its namespace whose lease is strictly below now, clearing the lease
fields and defaulting last_error to lease expired only when it was null,
leaves every other row unchanged, and returns the affected rowcount. -/
theorem c5_requeue (ns now : String) (s : DbState) (i : Nat)
    (r r2 : IssueRow)
    (hr : s.issues[i]? = some r)
    (hr2 : (requeueExpiredLeases ns now s).2.issues[i]? = some r2) :
    (requeueExpiredLeases ns now s).1 =
      (s.issues.countP (fun q => q.repo = ns &&
        (q.status = "running" &&
          (match q.lease_until with | some t => textLt t now | none => false))) : Int) ∧
    (requeueExpiredLeases ns now s).2.issues.length = s.issues.length ∧
    ((r.repo = ns ∧ r.status = "running" ∧ (∃ t, r.lease_until = some t ∧ textLt t now)) →
      r2 = { r with
              status := "pending"
              lease_until := none
              claimed_by := none
              last_error := some (r.last_error.getD "lease expired") } ∧
      (∀ e, r.last_error = some e → r2.last_error = some e)) ∧
    (¬ (r.repo = ns ∧ r.status = "running" ∧ (∃ t, r.lease_until = some t ∧ textLt t now)) →
      r2 = r) := by
  have hmap : (requeueExpiredLeases ns now s).2.issues = s.issues.map (fun q =>
      if q.repo = ns && leaseExpired now q then
        { q with
          status := "pending"
          lease_until := none
          claimed_by := none
          last_error := some (q.last_error.getD "lease expired") }
      else q) := rfl
  have hcond : ∀ q : IssueRow, (q.repo = ns && leaseExpired now q) = true ↔
      (q.repo = ns ∧ q.status = "running" ∧ (∃ t, q.lease_until = some t ∧ textLt t now)) := by
    intro q
    simp only [leaseExpired, Bool.and_eq_true, decide_eq_true_iff]
    constructor
    · rintro ⟨hrepo, hst, hlt⟩
      refine ⟨hrepo, hst, ?_⟩
      cases hq : q.lease_until with
      | none => rw [hq] at hlt; simp at hlt
      | some t => rw [hq] at hlt; exact ⟨t, rfl, hlt⟩
    · rintro ⟨hrepo, hst, t, hq, hlt⟩
      exact ⟨hrepo, hst, by rw [hq]; exact hlt⟩
  have hr2v : r2 = (fun q =>
      if q.repo = ns && leaseExpired now q then
        { q with
          status := "pending"
          lease_until := none
          claimed_by := none
          last_error := some (q.last_error.getD "lease expired") }
      else q) r := by
    rw [hmap] at hr2
    rw [List.getElem?_map, hr] at hr2
    simpa using hr2.symm
  refine ⟨rfl, by rw [hmap, List.length_map], ?_, ?_⟩
  · intro hc
    have hb : (r.repo = ns && leaseExpired now r) = true := (hcond r).mpr hc
    rw [hr2v]
    simp only [hb, if_true]
    refine ⟨by trivial, ?_⟩
    intro e he
    simp [he]
  · intro hc
    have hb : (r.repo = ns && leaseExpired now r) = false := by
      rw [Bool.eq_false_iff]
      intro hx
      exact hc ((hcond r).mp hx)
    rw [hr2v]
    simp [hb]

theorem c5_requeue_witness :
    (requeueExpiredLeases "ns" "2025-01-05T00:00:00Z" ⟨[runningRow], []⟩).1 = 1 :=
  (c5_requeue "ns" "2025-01-05T00:00:00Z" ⟨[runningRow], []⟩ 0 runningRow
    { runningRow with
      status := "pending"
      lease_until := none
      claimed_by := none
      last_error := some "lease expired" } (by decide) (by decide)).1.trans (by decide)

theorem invRow_congr {r r2 : IssueRow} (hst : r2.status = r.status)
    (hl : r2.lease_until = r.lease_until) (hc : r2.claimed_by = r.claimed_by)
    (h : InvRow r) : InvRow r2 := by
  unfold InvRow at *
  rw [hst, hl, hc]
  exact h

theorem invRows_map {rows : List IssueRow} {f : IssueRow → IssueRow}
    (h : ∀ r ∈ rows, InvRow r) (hf : ∀ r, InvRow r → InvRow (f r)) :
    ∀ r2 ∈ rows.map f, InvRow r2 := by
  intro r2 h2
  rcases List.mem_map.mp h2 with ⟨r, hrm, rfl⟩
  exact hf r (h r hrm)

theorem invRows_upsertOne {ns now : String} {p : PolledIssue} {rows : List IssueRow}
    (h : ∀ r ∈ rows, InvRow r) :
    ∀ r2 ∈ upsertOne ns now p rows, InvRow r2 := by
  unfold upsertOne
  by_cases hany : rows.any (keyIs ns p.id) = true
  · simp only [hany, if_true]
    refine invRows_map h ?_
    intro r hrI
    by_cases hk : keyIs ns p.id r = true
    · simp only [hk, if_true]
      exact invRow_congr rfl rfl rfl hrI
    · simp only [hk, if_false]
      exact hrI
  · simp only [hany, if_false]
    intro r2 h2
    rcases List.mem_append.mp h2 with hold | hnew
    · exact h r2 hold
    · rw [List.mem_singleton] at hnew
      subst hnew
      exact ⟨Or.inl rfl, Or.inr ⟨by simp, rfl, rfl⟩⟩

theorem invRows_upsertFold {ns now : String} {ps : List PolledIssue}
    {rows : List IssueRow} (h : ∀ r ∈ rows, InvRow r) :
    ∀ r2 ∈ ps.foldl (fun acc p => upsertOne ns now p acc) rows, InvRow r2 := by
  induction ps generalizing rows with
  | nil => simpa using h
  | cons p ps ih =>
      intro r2 h2
      exact ih (invRows_upsertOne h) r2 h2

theorem inv_applyOp (ns : String) (op : StoreOp) (s : DbState) (h : Inv s) :
    Inv (applyOp ns op s) := by
  cases op with
  | upsertPolled now ps =>
      intro r2 h2
      exact invRows_upsertFold h r2 h2
  | updateDetails d =>
      intro r2 h2
      refine invRows_map h ?_ r2 h2
      intro r hrI
      by_cases hk : keyIs ns d.id r = true
      · simp only [hk, if_true]
        exact invRow_congr rfl rfl rfl hrI
      · simp only [hk, if_false]
        exact hrI
  | requeueExpired now =>
      intro r2 h2
      refine invRows_map h ?_ r2 h2
      intro r hrI
      by_cases hk : (r.repo = ns && leaseExpired now r) = true
      · simp only [hk, if_true]
        exact ⟨Or.inl rfl, Or.inr ⟨by simp, rfl, rfl⟩⟩
      · simp only [hk, if_false]
        exact hrI
  | claimNext w maxA lu sa =>
      show Inv (claimNextPending ns w maxA lu sa s).2
      unfold claimNextPending
      cases hsel : selectTopPending ns maxA s.issues with
      | none => exact h
      | some r =>
          intro r2 h2
          refine invRows_map h ?_ r2 h2
          intro q hqI
          by_cases hk : keyIs ns r.id q = true
          · simp only [hk, if_true]
            exact ⟨Or.inr (Or.inl rfl), Or.inl ⟨rfl, by simp [applyClaim], by simp [applyClaim]⟩⟩
          · simp only [hk, if_false]
            exact hqI
  | claimById i w maxA lu sa =>
      show Inv (claimPendingById ns i w maxA lu sa s).2
      unfold claimPendingById
      cases hsel : s.issues.find? (fun r => keyIs ns i r && claimEligible ns maxA r) with
      | none => exact h
      | some r =>
          intro r2 h2
          refine invRows_map h ?_ r2 h2
          intro q hqI
          by_cases hk : keyIs ns r.id q = true
          · simp only [hk, if_true]
            exact ⟨Or.inr (Or.inl rfl), Or.inl ⟨rfl, by simp [applyClaim], by simp [applyClaim]⟩⟩
          · simp only [hk, if_false]
            exact hqI
  | opMarkDone i prn pru br sha rd ca =>
      intro r2 h2
      refine invRows_map h ?_ r2 h2
      intro q hqI
      by_cases hk : keyIs ns i q = true
      · simp only [hk, if_true]
        exact ⟨Or.inr (Or.inr (Or.inl rfl)), Or.inr ⟨by simp, rfl, rfl⟩⟩
      · simp only [hk, if_false]
        exact hqI
  | opMarkFailed i e rd ca =>
      intro r2 h2
      refine invRows_map h ?_ r2 h2
      intro q hqI
      by_cases hk : keyIs ns i q = true
      · simp only [hk, if_true]
        exact ⟨Or.inr (Or.inr (Or.inr (Or.inl rfl))), Or.inr ⟨by simp, rfl, rfl⟩⟩
      · simp only [hk, if_false]
        exact hqI
  | opMarkTimeout i e rd ca =>
      intro r2 h2
      refine invRows_map h ?_ r2 h2
      intro q hqI
      by_cases hk : keyIs ns i q = true
      · simp only [hk, if_true]
        exact ⟨Or.inr (Or.inr (Or.inr (Or.inr (Or.inl rfl)))), Or.inr ⟨by simp, rfl, rfl⟩⟩
      · simp only [hk, if_false]
        exact hqI
  | opMarkSkipped i e rd ca =>
      intro r2 h2
      refine invRows_map h ?_ r2 h2
      intro q hqI
      by_cases hk : keyIs ns i q = true
      · simp only [hk, if_true]
        exact ⟨Or.inr (Or.inr (Or.inr (Or.inr (Or.inr rfl)))), Or.inr ⟨by simp, rfl, rfl⟩⟩
      · simp only [hk, if_false]
        exact hqI
  | opSetMeta k v =>
      show Inv (setMeta ns k v s)
      unfold setMeta setMetaRaw
      by_cases hm : s.meta.any (fun kv => kv.1 = metaKey ns k) = true
      · simp only [hm, if_true]
        exact h
      · simp only [hm, if_false]
        exact h
  | opIncrementDaily d =>
      show Inv (incrementDailyDoneCount ns d s).2
      unfold incrementDailyDoneCount setMetaRaw
      by_cases hm : s.meta.any (fun kv => kv.1 = metaKey ns ("done_count:" ++ d)) = true
      · simp only [hm, if_true]
        exact h
      · simp only [hm, if_false]
        exact h
  | opClear =>
      intro r2 h2
      exact h r2 (List.mem_of_mem_filter h2)

theorem inv_applyOps (ops : List (String × StoreOp)) (s : DbState) (h : Inv s) :
    Inv (applyOps ops s) := by
  induction ops generalizing s with
  | nil => simpa [applyOps] using h
  | cons p ops ih =>
      show Inv (applyOps ops (applyOp p.1 p.2 s))
      exact ih _ (inv_applyOp p.1 p.2 s h)

/-- Claim C4: starting from the empty database, after any sequence of
Store operations every row is running exactly when both lease_until and
claimed_by are set, and has a pending or terminal status exactly when
both are null. -/
theorem c4_lease_invariant (ops : List (String × StoreOp)) (r : IssueRow)
    (hr : r ∈ (applyOps ops emptyDb).issues) :
    (r.status = "running" ↔ (r.lease_until ≠ none ∧ r.claimed_by ≠ none)) ∧
    ((r.status = "pending" ∨ r.status = "done" ∨ r.status = "failed" ∨
      r.status = "timeout" ∨ r.status = "skipped") ↔
      (r.lease_until = none ∧ r.claimed_by = none)) := by
  have hinv : Inv (applyOps ops emptyDb) := by
    refine inv_applyOps ops emptyDb ?_
    intro q hq
    simp [emptyDb] at hq
  obtain ⟨halpha, hdisj⟩ := hinv r hr
  constructor
  · constructor
    · intro hrun
      rcases hdisj with ⟨_, hl, hc⟩ | ⟨hne, _, _⟩
      · exact ⟨hl, hc⟩
      · exact absurd hrun hne
    · rintro ⟨hl, hc⟩
      rcases hdisj with ⟨hrun, _, _⟩ | ⟨_, hln, _⟩
      · exact hrun
      · exact absurd hln hl
  · constructor
    · intro hfive
      have hne : r.status ≠ "running" := by
        rcases hfive with h1 | h1 | h1 | h1 | h1 <;> rw [h1] <;> decide
      rcases hdisj with ⟨hrun, _, _⟩ | ⟨_, hl, hc⟩
      · exact absurd hrun hne
      · exact ⟨hl, hc⟩
    · rintro ⟨hl, hc⟩
      have hne : r.status ≠ "running" := by
        rcases hdisj with ⟨_, hlne, _⟩ | ⟨hne2, _, _⟩
        · exact absurd hl hlne
        · exact hne2
      rcases halpha with h1 | h1 | h1 | h1 | h1 | h1
      · exact Or.inl h1
      · exact absurd h1 hne
      · exact Or.inr (Or.inl h1)
      · exact Or.inr (Or.inr (Or.inl h1))
      · exact Or.inr (Or.inr (Or.inr (Or.inl h1)))
      · exact Or.inr (Or.inr (Or.inr (Or.inr h1)))

theorem c4_lease_invariant_witness :
    (c4Row ∈ (applyOps c4Ops emptyDb).issues) ∧
    ((c4Row.status = "running" ↔ (c4Row.lease_until ≠ none ∧ c4Row.claimed_by ≠ none)) ∧
     ((c4Row.status = "pending" ∨ c4Row.status = "done" ∨ c4Row.status = "failed" ∨
       c4Row.status = "timeout" ∨ c4Row.status = "skipped") ↔
       (c4Row.lease_until = none ∧ c4Row.claimed_by = none))) :=
  ⟨by decide, c4_lease_invariant c4Ops c4Row (by decide)⟩

theorem all_congr_bool {α : Type} (l : List α) (p q : α → Bool)
    (h : ∀ x ∈ l, p x = q x) : l.all p = l.all q := by
  induction l with
  | nil => rfl
  | cons x xs ih =>
      simp only [List.all_cons]
      rw [h x (List.mem_cons_self x xs), ih (fun y hy => h y (List.mem_cons_of_mem x hy))]

theorem distinctKeys_cons {r : IssueRow} {rest : List IssueRow}
    (h : DistinctKeys (r :: rest)) :
    (∀ q ∈ rest, ¬ (q.repo = r.repo ∧ q.id = r.id)) ∧ DistinctKeys rest := by
  unfold DistinctKeys distinctKeysB at h
  rw [Bool.and_eq_true, List.all_eq_true] at h
  obtain ⟨h1, h2⟩ := h
  refine ⟨?_, h2⟩
  intro q hq hkey
  have hb := h1 q hq
  simp only [Bool.not_eq_eq_eq_not, Bool.not_true, Bool.and_eq_false_iff,
    decide_eq_false_iff_not] at hb
  rcases hb with hb | hb
  · exact hb hkey.1
  · exact hb hkey.2

theorem distinctKeys_cons_intro {r : IssueRow} {rest : List IssueRow}
    (h1 : ∀ q ∈ rest, ¬ (q.repo = r.repo ∧ q.id = r.id))
    (h2 : DistinctKeys rest) : DistinctKeys (r :: rest) := by
  unfold DistinctKeys distinctKeysB
  rw [Bool.and_eq_true, List.all_eq_true]
  refine ⟨?_, h2⟩
  intro q hq
  simp only [Bool.not_eq_eq_eq_not, Bool.not_true, Bool.and_eq_false_iff,
    decide_eq_false_iff_not]
  by_cases hrepo : q.repo = r.repo
  · right
    intro hid
    exact h1 q hq ⟨hrepo, hid⟩
  · left
    exact hrepo

theorem distinct_eq_of_key {rows : List IssueRow} (hd : DistinctKeys rows)
    {a b : IssueRow} (ha : a ∈ rows) (hb : b ∈ rows)
    (hrepo : a.repo = b.repo) (hid : a.id = b.id) : a = b := by
  induction rows with
  | nil => cases ha
  | cons r rest ih =>
      obtain ⟨hhead, htail⟩ := distinctKeys_cons hd
      rcases List.mem_cons.mp ha with rfl | ha2
      · rcases List.mem_cons.mp hb with rfl | hb2
        · rfl
        · exact absurd ⟨hrepo.symm, hid.symm⟩ (hhead b hb2)
      · rcases List.mem_cons.mp hb with rfl | hb2
        · exact absurd ⟨hrepo, hid⟩ (hhead a ha2)
        · exact ih htail ha2 hb2


theorem attempt_mono_map {rows : List IssueRow} (hd : DistinctKeys rows)
    {f : IssueRow → IssueRow}
    (hkey : ∀ q, (f q).repo = q.repo ∧ (f q).id = q.id)
    (hatt : ∀ q, q.attempt_count ≤ (f q).attempt_count) :
    ∀ r ∈ rows, ∀ r2 ∈ rows.map f, r2.repo = r.repo → r2.id = r.id →
      r.attempt_count ≤ r2.attempt_count := by
  intro r hr r2 hr2 hrepo hid
  rcases List.mem_map.mp hr2 with ⟨q, hq, rfl⟩
  have hq_r : q = r := by
    refine distinct_eq_of_key hd hq hr ?_ ?_
    · rw [← (hkey q).1]; exact hrepo
    · rw [← (hkey q).2]; exact hid
  subst hq_r
  exact hatt q

theorem distinctB_map {rows : List IssueRow} {f : IssueRow → IssueRow}
    (hkey : ∀ q, (f q).repo = q.repo ∧ (f q).id = q.id) :
    distinctKeysB (rows.map f) = distinctKeysB rows := by
  induction rows with
  | nil => rfl
  | cons r rest ih =>
      simp only [List.map_cons, distinctKeysB, List.all_map]
      rw [ih]
      have hall : rest.all ((fun q => !(q.repo = (f r).repo && q.id = (f r).id)) ∘ f) =
          rest.all (fun q => !(q.repo = r.repo && q.id = r.id)) := by
        refine all_congr_bool rest _ _ ?_
        intro q hq
        simp only [Function.comp_apply, (hkey q).1, (hkey q).2, (hkey r).1, (hkey r).2]
      rw [hall]

theorem upsertOne_keyF {ns : String} {p : PolledIssue} (r : IssueRow) :
    ((if keyIs ns p.id r then
        { r with
          title := p.title
          body := p.body.orElse (fun _ => r.body)
          url := p.url
          labels := p.labels
          updated_at := p.updated_at }
      else r).repo = r.repo) ∧
    ((if keyIs ns p.id r then
        { r with
          title := p.title
          body := p.body.orElse (fun _ => r.body)
          url := p.url
          labels := p.labels
          updated_at := p.updated_at }
      else r).id = r.id) ∧
    ((if keyIs ns p.id r then
        { r with
          title := p.title
          body := p.body.orElse (fun _ => r.body)
          url := p.url
          labels := p.labels
          updated_at := p.updated_at }
      else r).attempt_count = r.attempt_count) := by
  by_cases hk : keyIs ns p.id r = true
  · simp [hk]
  · simp [hk]

theorem distinct_append_fresh {rows : List IssueRow} {fresh : IssueRow}
    (hd : DistinctKeys rows)
    (hnew : ∀ q ∈ rows, ¬ (q.repo = fresh.repo ∧ q.id = fresh.id)) :
    DistinctKeys (rows ++ [fresh]) := by
  induction rows with
  | nil =>
      show distinctKeysB [fresh] = true
      rfl
  | cons r rest ih =>
      obtain ⟨hhead, htail⟩ := distinctKeys_cons hd
      refine distinctKeys_cons_intro ?_
        (ih htail (fun q hq => hnew q (List.mem_cons_of_mem r hq)))
      intro q hq
      rcases List.mem_append.mp hq with hq1 | hq2
      · exact hhead q hq1
      · rw [List.mem_singleton] at hq2
        subst hq2
        intro hkey
        exact hnew r (List.mem_cons_self r rest) ⟨hkey.1.symm, hkey.2.symm⟩

theorem distinct_upsertOne {ns now : String} {p : PolledIssue}
    {rows : List IssueRow} (hd : DistinctKeys rows) :
    DistinctKeys (upsertOne ns now p rows) := by
  unfold upsertOne
  by_cases hany : rows.any (keyIs ns p.id) = true
  · simp only [hany, if_true]
    show distinctKeysB _ = true
    rw [distinctB_map (fun q => ⟨(@upsertOne_keyF ns p q).1,
      (@upsertOne_keyF ns p q).2.1⟩)]
    exact hd
  · rw [Bool.not_eq_true] at hany
    simp only [hany, Bool.false_eq_true, if_false]
    rw [List.any_eq_false] at hany
    refine distinct_append_fresh hd ?_
    intro q hq hkey
    have hb := hany q hq
    rw [keyIs, Bool.and_eq_true, decide_eq_true_iff, decide_eq_true_iff] at hb
    exact hb ⟨hkey.1, hkey.2⟩


theorem attempt_present_upsertOne {ns now : String} {p : PolledIssue}
    {rows : List IssueRow} (r : IssueRow) (hr : r ∈ rows) :
    ∃ r2 ∈ upsertOne ns now p rows, r2.repo = r.repo ∧ r2.id = r.id ∧
      r.attempt_count ≤ r2.attempt_count := by
  unfold upsertOne
  by_cases hany : rows.any (keyIs ns p.id) = true
  · simp only [hany, if_true]
    refine ⟨_, List.mem_map_of_mem _ hr, (@upsertOne_keyF ns p r).1,
      (@upsertOne_keyF ns p r).2.1, ?_⟩
    rw [(@upsertOne_keyF ns p r).2.2]
  · rw [Bool.not_eq_true] at hany
    simp only [hany, Bool.false_eq_true, if_false]
    exact ⟨r, List.mem_append_left _ hr, rfl, rfl, Nat.le_refl _⟩

theorem attempt_mono_upsertFold {ns now : String} {ps : List PolledIssue}
    {rows : List IssueRow} (hd : DistinctKeys rows) :
    ∀ r ∈ rows, ∀ r2 ∈ ps.foldl (fun acc p => upsertOne ns now p acc) rows,
      r2.repo = r.repo → r2.id = r.id → r.attempt_count ≤ r2.attempt_count := by
  induction ps generalizing rows with
  | nil =>
      intro r hr r2 hr2 hrepo hid
      simp only [List.foldl_nil] at hr2
      rw [distinct_eq_of_key hd hr2 hr hrepo hid]
  | cons p ps ih =>
      intro r hr r2 hr2 hrepo hid
      simp only [List.foldl_cons] at hr2
      obtain ⟨rMid, hmid, hrepo2, hid2, hle⟩ :=
        @attempt_present_upsertOne ns now p _ r hr
      have hd2 := @distinct_upsertOne ns now p _ hd
      exact Nat.le_trans hle
        (ih hd2 rMid hmid r2 hr2 (hrepo.trans hrepo2.symm) (hid.trans hid2.symm))

theorem attempt_mono_applyOp (ns : String) (op : StoreOp) (s : DbState)
    (hd : DistinctKeys s.issues) :
    ∀ r ∈ s.issues, ∀ r2 ∈ (applyOp ns op s).issues,
      r2.repo = r.repo → r2.id = r.id → r.attempt_count ≤ r2.attempt_count := by
  cases op with
  | upsertPolled now ps =>
      exact fun r hr r2 hr2 => attempt_mono_upsertFold hd r hr r2 hr2
  | updateDetails d =>
      refine attempt_mono_map hd ?_ ?_
      · intro q; by_cases hk : keyIs ns d.id q = true <;> simp [hk]
      · intro q; by_cases hk : keyIs ns d.id q = true <;> simp [hk]
  | requeueExpired now =>
      refine attempt_mono_map hd ?_ ?_
      · intro q; by_cases hk : (q.repo = ns && leaseExpired now q) = true <;> simp [hk]
      · intro q; by_cases hk : (q.repo = ns && leaseExpired now q) = true <;> simp [hk]
  | claimNext w maxA lu sa =>
      intro r hr r2 hr2 hrepo hid
      show r.attempt_count ≤ r2.attempt_count
      have hr2b : r2 ∈ (claimNextPending ns w maxA lu sa s).2.issues := hr2
      revert hr2b
      unfold claimNextPending
      cases hsel : selectTopPending ns maxA s.issues with
      | none =>
          intro hr2b
          rw [distinct_eq_of_key hd hr2b hr hrepo hid]
      | some rr =>
          intro hr2b
          refine attempt_mono_map hd ?_ ?_ r hr r2 hr2b hrepo hid
          · intro q; by_cases hk : keyIs ns rr.id q = true <;> simp [hk, applyClaim]
          · intro q
            by_cases hk : keyIs ns rr.id q = true
            · simp only [hk, if_true, applyClaim]
              exact Nat.le_succ _
            · simp [hk]
  | claimById i w maxA lu sa =>
      intro r hr r2 hr2 hrepo hid
      have hr2b : r2 ∈ (claimPendingById ns i w maxA lu sa s).2.issues := hr2
      revert hr2b
      unfold claimPendingById
      cases hsel : s.issues.find? (fun q => keyIs ns i q && claimEligible ns maxA q) with
      | none =>
          intro hr2b
          rw [distinct_eq_of_key hd hr2b hr hrepo hid]
      | some rr =>
          intro hr2b
          refine attempt_mono_map hd ?_ ?_ r hr r2 hr2b hrepo hid
          · intro q; by_cases hk : keyIs ns rr.id q = true <;> simp [hk, applyClaim]
          · intro q
            by_cases hk : keyIs ns rr.id q = true
            · simp only [hk, if_true, applyClaim]
              exact Nat.le_succ _
            · simp [hk]
  | opMarkDone i prn pru br sha rd ca =>
      refine attempt_mono_map hd ?_ ?_
      · intro q; by_cases hk : keyIs ns i q = true <;> simp [hk]
      · intro q; by_cases hk : keyIs ns i q = true <;> simp [hk]
  | opMarkFailed i e rd ca =>
      refine attempt_mono_map hd ?_ ?_
      · intro q; by_cases hk : keyIs ns i q = true <;> simp [hk, markWith]
      · intro q; by_cases hk : keyIs ns i q = true <;> simp [hk, markWith]
  | opMarkTimeout i e rd ca =>
      refine attempt_mono_map hd ?_ ?_
      · intro q; by_cases hk : keyIs ns i q = true <;> simp [hk, markWith]
      · intro q; by_cases hk : keyIs ns i q = true <;> simp [hk, markWith]
  | opMarkSkipped i e rd ca =>
      refine attempt_mono_map hd ?_ ?_
      · intro q; by_cases hk : keyIs ns i q = true <;> simp [hk, markWith]
      · intro q; by_cases hk : keyIs ns i q = true <;> simp [hk, markWith]
  | opSetMeta k v =>
      intro r hr r2 hr2 hrepo hid
      have hr2b : r2 ∈ s.issues := by
        have h0 : r2 ∈ (setMeta ns k v s).issues := hr2
        unfold setMeta setMetaRaw at h0
        by_cases hm : s.meta.any (fun kv => kv.1 = metaKey ns k) = true
        · simpa [hm] using h0
        · simpa [hm] using h0
      rw [distinct_eq_of_key hd hr2b hr hrepo hid]
  | opIncrementDaily d =>
      intro r hr r2 hr2 hrepo hid
      have hr2b : r2 ∈ s.issues := by
        have : r2 ∈ (incrementDailyDoneCount ns d s).2.issues := hr2
        unfold incrementDailyDoneCount setMetaRaw at this
        by_cases hm : s.meta.any
            (fun kv => kv.1 = metaKey ns ("done_count:" ++ d)) = true
        · simpa [hm] using this
        · simpa [hm] using this
      rw [distinct_eq_of_key hd hr2b hr hrepo hid]
  | opClear =>
      intro r hr r2 hr2 hrepo hid
      have hr2b : r2 ∈ s.issues := List.mem_of_mem_filter hr2
      rw [distinct_eq_of_key hd hr2b hr hrepo hid]


theorem foldPick_mem {l : List IssueRow} :
    ∀ {acc : Option IssueRow} {r : IssueRow},
      l.foldl (fun acc q => match acc with
        | none => some q
        | some b => if claimBetter q b then some q else some b) acc = some r →
      acc = some r ∨ r ∈ l := by
  induction l with
  | nil =>
      intro acc r h
      simp only [List.foldl_nil] at h
      exact Or.inl h
  | cons x xs ih =>
      intro acc r h
      simp only [List.foldl_cons] at h
      rcases ih h with hacc | hmem
      · cases acc with
        | none =>
            have hx : x = r := Option.some.inj hacc
            exact Or.inr (hx ▸ List.mem_cons_self x xs)
        | some b =>
            have hacc2 : (if claimBetter x b = true then some x else some b) = some r := hacc
            by_cases hb : claimBetter x b = true
            · rw [if_pos hb] at hacc2
              exact Or.inr ((Option.some.inj hacc2) ▸ List.mem_cons_self x xs)
            · rw [if_neg hb] at hacc2
              exact Or.inl hacc2
      · exact Or.inr (List.mem_cons_of_mem x hmem)

theorem selectTopPending_some_mem {ns : String} {maxA : Int}
    {rows : List IssueRow} {r : IssueRow}
    (h : selectTopPending ns maxA rows = some r) :
    r ∈ rows ∧ claimEligible ns maxA r = true := by
  unfold selectTopPending at h
  rcases foldPick_mem h with hacc | hm
  · cases hacc
  · have hmf := List.mem_filter.mp hm
    exact ⟨hmf.1, hmf.2⟩

theorem claimNextPending_some {ns w : String} {maxA : Int} {lu sa : String}
    {s : DbState} {rPost : IssueRow} {s1 : DbState}
    (h : claimNextPending ns w maxA lu sa s = (some rPost, s1)) :
    ∃ rPre, rPre ∈ s.issues ∧ claimEligible ns maxA rPre = true ∧
      rPost = applyClaim sa lu w rPre ∧
      s1 = { s with issues := s.issues.map (fun q =>
        if keyIs ns rPre.id q then applyClaim sa lu w q else q) } := by
  unfold claimNextPending at h
  cases hsel : selectTopPending ns maxA s.issues with
  | none =>
      rw [hsel] at h
      simp at h
  | some rr =>
      rw [hsel] at h
      rw [Prod.mk.injEq] at h
      obtain ⟨h1, h2⟩ := h
      obtain ⟨hmem, helig⟩ := selectTopPending_some_mem hsel
      exact ⟨rr, hmem, helig, (Option.some.inj h1).symm, h2.symm⟩

theorem claimPendingById_some {ns : String} {i : Nat} {w : String} {maxA : Int}
    {lu sa : String} {s : DbState} {rPost : IssueRow} {s1 : DbState}
    (h : claimPendingById ns i w maxA lu sa s = (some rPost, s1)) :
    ∃ rPre, rPre ∈ s.issues ∧ keyIs ns i rPre = true ∧
      claimEligible ns maxA rPre = true ∧
      rPost = applyClaim sa lu w rPre ∧
      s1 = { s with issues := s.issues.map (fun q =>
        if keyIs ns rPre.id q then applyClaim sa lu w q else q) } := by
  unfold claimPendingById at h
  cases hsel : s.issues.find? (fun q => keyIs ns i q && claimEligible ns maxA q) with
  | none =>
      rw [hsel] at h
      simp at h
  | some rr =>
      rw [hsel] at h
      rw [Prod.mk.injEq] at h
      obtain ⟨h1, h2⟩ := h
      have hmem := List.mem_of_find?_eq_some hsel
      have hpred := List.find?_some hsel
      rw [Bool.and_eq_true] at hpred
      exact ⟨rr, hmem, hpred.1, hpred.2, (Option.some.inj h1).symm, h2.symm⟩

theorem claimEligible_iff {ns : String} {maxA : Int} {r : IssueRow} :
    claimEligible ns maxA r = true ↔
      (r.repo = ns ∧ r.status = "pending" ∧ (r.attempt_count : Int) < maxA) := by
  unfold claimEligible
  simp [Bool.and_eq_true, decide_eq_true_iff, and_assoc]

/-- Claim C3: attempt_count never decreases under any Store operation, a
successful claim requires a pending pre-state row with attempt_count
strictly below max_attempts and increments it by exactly one (hence it is
at most max_attempts right after the claim), and a row whose
attempt_count has reached max_attempts is never the claimed row. -/
theorem c3_attempt_counts (ns : String) (s : DbState) (hd : DistinctKeys s.issues)
    (op : StoreOp) (r r2 : IssueRow)
    (hr : r ∈ s.issues) (hr2 : r2 ∈ (applyOp ns op s).issues)
    (hrepo : r2.repo = r.repo) (hid : r2.id = r.id)
    (w : String) (maxA : Int) (lu sa : String) (i : Nat)
    (rPost rPost2 : IssueRow) (s1 s2 : DbState)
    (hclaim : claimNextPending ns w maxA lu sa s = (some rPost, s1))
    (hclaim2 : claimPendingById ns i w maxA lu sa s = (some rPost2, s2)) :
    r.attempt_count ≤ r2.attempt_count ∧
    (∃ rPre, rPre ∈ s.issues ∧ rPre.status = "pending" ∧
      (rPre.attempt_count : Int) < maxA ∧
      rPost.attempt_count = rPre.attempt_count + 1 ∧
      (rPost.attempt_count : Int) ≤ maxA ∧
      (∀ q ∈ s.issues, maxA ≤ (q.attempt_count : Int) →
        ¬ (q.repo = ns ∧ q.id = rPre.id))) ∧
    (∃ rPre, rPre ∈ s.issues ∧ rPre.repo = ns ∧ rPre.id = i ∧
      rPre.status = "pending" ∧ (rPre.attempt_count : Int) < maxA ∧
      rPost2.attempt_count = rPre.attempt_count + 1 ∧
      (rPost2.attempt_count : Int) ≤ maxA) := by
  refine ⟨attempt_mono_applyOp ns op s hd r hr r2 hr2 hrepo hid, ?_, ?_⟩
  · obtain ⟨rPre, hmem, helig, hpost, _⟩ := claimNextPending_some hclaim
    obtain ⟨hrepoP, hstat, hatt⟩ := claimEligible_iff.mp helig
    refine ⟨rPre, hmem, hstat, hatt, by rw [hpost]; rfl, ?_, ?_⟩
    · rw [hpost]
      show ((rPre.attempt_count + 1 : Nat) : Int) ≤ maxA
      push_cast
      omega
    · intro q hq hqatt hqkey
      have hq_eq : q = rPre := distinct_eq_of_key hd hq hmem
        (hqkey.1.trans hrepoP.symm) hqkey.2
      subst hq_eq
      omega
  · obtain ⟨rPre, hmem, hkey, helig, hpost, _⟩ := claimPendingById_some hclaim2
    obtain ⟨hrepoP, hstat, hatt⟩ := claimEligible_iff.mp helig
    rw [keyIs, Bool.and_eq_true, decide_eq_true_iff, decide_eq_true_iff] at hkey
    refine ⟨rPre, hmem, hkey.1, hkey.2, hstat, hatt, by rw [hpost]; rfl, ?_⟩
    rw [hpost]
    show ((rPre.attempt_count + 1 : Nat) : Int) ≤ maxA
    push_cast
    omega

theorem c3_attempt_counts_witness :
    baseRow.attempt_count ≤ c3MarkedRow.attempt_count ∧
    (∃ rPre, rPre ∈ (⟨[baseRow], []⟩ : DbState).issues ∧ rPre.status = "pending" ∧
      (rPre.attempt_count : Int) < 2 ∧
      (applyClaim "S" "L" "w" baseRow).attempt_count = rPre.attempt_count + 1 ∧
      ((applyClaim "S" "L" "w" baseRow).attempt_count : Int) ≤ 2 ∧
      (∀ q ∈ (⟨[baseRow], []⟩ : DbState).issues, (2 : Int) ≤ (q.attempt_count : Int) →
        ¬ (q.repo = "ns" ∧ q.id = rPre.id))) ∧
    (∃ rPre, rPre ∈ (⟨[baseRow], []⟩ : DbState).issues ∧ rPre.repo = "ns" ∧ rPre.id = 1 ∧
      rPre.status = "pending" ∧ (rPre.attempt_count : Int) < 2 ∧
      (applyClaim "S" "L" "w" baseRow).attempt_count = rPre.attempt_count + 1 ∧
      ((applyClaim "S" "L" "w" baseRow).attempt_count : Int) ≤ 2) :=
  c3_attempt_counts "ns" ⟨[baseRow], []⟩ (by decide) (.opMarkFailed 1 "err" none "T")
    baseRow c3MarkedRow (by decide) (by decide) (by decide) (by decide)
    "w" 2 "L" "S" 1 (applyClaim "S" "L" "w" baseRow) (applyClaim "S" "L" "w" baseRow)
    ⟨[applyClaim "S" "L" "w" baseRow], []⟩ ⟨[applyClaim "S" "L" "w" baseRow], []⟩
    (by decide) (by decide)




theorem keyIs_congr {ns : String} {i : Nat} {a b : IssueRow}
    (hrepo : a.repo = b.repo) (hid : a.id = b.id) :
    keyIs ns i a = keyIs ns i b := by
  unfold keyIs
  rw [hrepo, hid]

theorem countP_key_le_one {rows : List IssueRow} (hd : DistinctKeys rows)
    (ns : String) (i : Nat) : rows.countP (keyIs ns i) ≤ 1 := by
  induction rows with
  | nil => simp
  | cons r rest ih =>
      obtain ⟨hhead, htail⟩ := distinctKeys_cons hd
      rw [List.countP_cons]
      by_cases hk : keyIs ns i r = true
      · have hzero : rest.countP (keyIs ns i) = 0 := by
          rw [List.countP_eq_zero]
          intro q hq hkq
          rw [keyIs, Bool.and_eq_true, decide_eq_true_iff, decide_eq_true_iff] at hk hkq
          exact hhead q hq ⟨hkq.1.trans hk.1.symm, hkq.2.trans hk.2.symm⟩
        simp [hk, hzero]
      · simp only [hk]
        simpa using ih htail

theorem upsertOne_key_present (ns now : String) (p : PolledIssue)
    (rows : List IssueRow) :
    ∃ r2 ∈ upsertOne ns now p rows, keyIs ns p.id r2 = true := by
  unfold upsertOne
  by_cases hany : rows.any (keyIs ns p.id) = true
  · simp only [hany, if_true]
    rw [List.any_eq_true] at hany
    obtain ⟨r, hr, hk⟩ := hany
    refine ⟨_, List.mem_map_of_mem _ hr, ?_⟩
    rw [keyIs_congr (@upsertOne_keyF ns p r).1
      (@upsertOne_keyF ns p r).2.1]
    exact hk
  · rw [Bool.not_eq_true] at hany
    simp only [hany, Bool.false_eq_true, if_false]
    refine ⟨_, List.mem_append_right _ (List.mem_singleton_self _), ?_⟩
    simp [keyIs]

theorem upsertOne_updates (ns now : String) (p : PolledIssue)
    {rows : List IssueRow} {r1 : IssueRow} (hr1 : r1 ∈ rows)
    (hk1 : keyIs ns p.id r1 = true) :
    ({ r1 with
        title := p.title
        body := p.body.orElse (fun _ => r1.body)
        url := p.url
        labels := p.labels
        updated_at := p.updated_at } : IssueRow) ∈ upsertOne ns now p rows := by
  unfold upsertOne
  have hany : rows.any (keyIs ns p.id) = true :=
    List.any_eq_true.mpr ⟨r1, hr1, hk1⟩
  simp only [hany, if_true]
  have := List.mem_map_of_mem (fun r =>
      if keyIs ns p.id r then
        { r with
          title := p.title
          body := p.body.orElse (fun _ => r.body)
          url := p.url
          labels := p.labels
          updated_at := p.updated_at }
      else r) hr1
  simpa only [hk1, if_true] using this

theorem countP_key_upsertOne (ns now : String) (p : PolledIssue)
    {rows : List IssueRow} (hd : DistinctKeys rows) :
    (upsertOne ns now p rows).countP (keyIs ns p.id) = 1 := by
  have hle := countP_key_le_one (@distinct_upsertOne ns now p _ hd) ns p.id
  obtain ⟨r2, hr2, hk2⟩ := upsertOne_key_present ns now p rows
  have hpos : 0 < (upsertOne ns now p rows).countP (keyIs ns p.id) :=
    List.countP_pos_iff.mpr ⟨r2, hr2, hk2⟩
  omega

/-- Claim C7: upserting the same issue id twice yields exactly one row for
the key; the second upsert overwrites title, url, labels and updated_at,
keeps a stored body when the new body is null, and leaves status,
attempt_count, lease fields and publication fields unchanged, so a
terminal status is never regressed to pending. -/
theorem c7_upsert_twice (ns now1 now2 : String) (s : DbState)
    (hd : DistinctKeys s.issues) (p1 p2 : PolledIssue) (hid : p1.id = p2.id) :
    (upsertPolledIssues ns now2 [p2] (upsertPolledIssues ns now1 [p1] s)).issues.countP
      (keyIs ns p2.id) = 1 ∧
    ∃ r1 ∈ (upsertPolledIssues ns now1 [p1] s).issues, keyIs ns p2.id r1 = true ∧
    ∃ r2 ∈ (upsertPolledIssues ns now2 [p2]
        (upsertPolledIssues ns now1 [p1] s)).issues, keyIs ns p2.id r2 = true ∧
      r2.title = p2.title ∧ r2.url = p2.url ∧ r2.labels = p2.labels ∧
      r2.updated_at = p2.updated_at ∧
      r2.body = p2.body.orElse (fun _ => r1.body) ∧
      (∀ b, p2.body = none → r1.body = some b → r2.body = some b) ∧
      r2.status = r1.status ∧ r2.attempt_count = r1.attempt_count ∧
      r2.lease_until = r1.lease_until ∧ r2.claimed_by = r1.claimed_by ∧
      r2.branch = r1.branch ∧ r2.pr_number = r1.pr_number ∧
      r2.pr_url = r1.pr_url ∧ r2.head_sha = r1.head_sha ∧
      (r1.status ≠ "pending" → r2.status ≠ "pending") := by
  have hrows1 : (upsertPolledIssues ns now1 [p1] s).issues = upsertOne ns now1 p1 s.issues := rfl
  have hrows2 : (upsertPolledIssues ns now2 [p2]
      (upsertPolledIssues ns now1 [p1] s)).issues =
      upsertOne ns now2 p2 (upsertOne ns now1 p1 s.issues) := rfl
  have hd1 : DistinctKeys (upsertOne ns now1 p1 s.issues) :=
    @distinct_upsertOne ns now1 p1 _ hd
  obtain ⟨r1, hr1, hk1⟩ := upsertOne_key_present ns now1 p1 s.issues
  rw [hid] at hk1
  refine ⟨?_, ?_⟩
  · rw [hrows2]
    exact countP_key_upsertOne ns now2 p2 hd1
  · refine ⟨r1, by rw [hrows1]; exact hr1, hk1, ?_⟩
    refine ⟨_, by rw [hrows2]; exact upsertOne_updates ns now2 p2 hr1 hk1, ?_⟩
    have hkey2 : keyIs ns p2.id ({ r1 with
        title := p2.title
        body := p2.body.orElse (fun _ => r1.body)
        url := p2.url
        labels := p2.labels
        updated_at := p2.updated_at } : IssueRow) = true := by
      rw [@keyIs_congr ns p2.id { r1 with
        title := p2.title
        body := p2.body.orElse (fun _ => r1.body)
        url := p2.url
        labels := p2.labels
        updated_at := p2.updated_at } r1 rfl rfl]
      exact hk1
    refine ⟨hkey2, rfl, rfl, rfl, rfl, rfl, ?_, rfl, rfl, rfl, rfl, rfl, rfl, rfl, rfl, ?_⟩
    · intro b hnone hsome
      show p2.body.orElse (fun _ => r1.body) = some b
      rw [hnone, hsome]
      rfl
    · intro hne
      exact hne

theorem c7_upsert_twice_witness :
    (upsertPolledIssues "ns" "N2" [c7P2]
      (upsertPolledIssues "ns" "N1" [c7P1] emptyDb)).issues.countP
        (keyIs "ns" c7P2.id) = 1 ∧
    ∃ r1 ∈ (upsertPolledIssues "ns" "N1" [c7P1] emptyDb).issues,
      keyIs "ns" c7P2.id r1 = true ∧
    ∃ r2 ∈ (upsertPolledIssues "ns" "N2" [c7P2]
        (upsertPolledIssues "ns" "N1" [c7P1] emptyDb)).issues,
      keyIs "ns" c7P2.id r2 = true ∧
      r2.title = c7P2.title ∧ r2.url = c7P2.url ∧ r2.labels = c7P2.labels ∧
      r2.updated_at = c7P2.updated_at ∧
      r2.body = c7P2.body.orElse (fun _ => r1.body) ∧
      (∀ b, c7P2.body = none → r1.body = some b → r2.body = some b) ∧
      r2.status = r1.status ∧ r2.attempt_count = r1.attempt_count ∧
      r2.lease_until = r1.lease_until ∧ r2.claimed_by = r1.claimed_by ∧
      r2.branch = r1.branch ∧ r2.pr_number = r1.pr_number ∧
      r2.pr_url = r1.pr_url ∧ r2.head_sha = r1.head_sha ∧
      (r1.status ≠ "pending" → r2.status ≠ "pending") :=
  c7_upsert_twice "ns" "N1" "N2" emptyDb (by decide) c7P1 c7P2 rfl


theorem charsLt_trans : ∀ {a b c : List Char},
    charsLt a b = true → charsLt b c = true → charsLt a c = true := by
  intro a
  induction a with
  | nil =>
      intro b c hab hbc
      cases b with
      | nil => simp [charsLt] at hab
      | cons y ys =>
          cases c with
          | nil => simp [charsLt] at hbc
          | cons z zs => simp [charsLt]
  | cons x xs ih =>
      intro b c hab hbc
      cases b with
      | nil => simp [charsLt] at hab
      | cons y ys =>
          cases c with
          | nil => simp [charsLt] at hbc
          | cons z zs =>
              simp only [charsLt, Bool.or_eq_true, Bool.and_eq_true,
                decide_eq_true_iff] at hab hbc ⊢
              rcases hab with hab | ⟨hab1, hab2⟩
              · rcases hbc with hbc | ⟨hbc1, hbc2⟩
                · exact Or.inl (Nat.lt_trans hab hbc)
                · exact Or.inl (hbc1 ▸ hab)
              · rcases hbc with hbc | ⟨hbc1, hbc2⟩
                · exact Or.inl (hab1 ▸ hbc)
                · exact Or.inr ⟨hab1.trans hbc1, ih hab2 hbc2⟩

theorem charsLt_total : ∀ (a b : List Char),
    charsLt a b = true ∨ charsLt b a = true ∨ a = b := by
  intro a
  induction a with
  | nil =>
      intro b
      cases b with
      | nil => exact Or.inr (Or.inr rfl)
      | cons y ys => exact Or.inl (by simp [charsLt])
  | cons x xs ih =>
      intro b
      cases b with
      | nil => exact Or.inr (Or.inl (by simp [charsLt]))
      | cons y ys =>
          rcases Nat.lt_trichotomy x.toNat y.toNat with hlt | heq | hgt
          · exact Or.inl (by simp [charsLt, hlt])
          · have hxy : x = y := Char.ext (UInt32.toNat.inj heq)
            rcases ih ys with h1 | h1 | h1
            · exact Or.inl (by simp [charsLt, heq, h1])
            · exact Or.inr (Or.inl (by simp [charsLt, heq.symm, h1]))
            · exact Or.inr (Or.inr (by rw [hxy, h1]))
          · exact Or.inr (Or.inl (by simp [charsLt, hgt]))

theorem textLt_trans {a b c : String} (hab : textLt a b = true)
    (hbc : textLt b c = true) : textLt a c = true :=
  charsLt_trans hab hbc

theorem textLt_total (a b : String) :
    textLt a b = true ∨ textLt b a = true ∨ a = b := by
  rcases charsLt_total a.data b.data with h | h | h
  · exact Or.inl h
  · exact Or.inr (Or.inl h)
  · exact Or.inr (Or.inr (String.ext h))

theorem claimBetter_trans {a b c : IssueRow} (hab : claimBetter a b = true)
    (hbc : claimBetter b c = true) : claimBetter a c = true := by
  simp only [claimBetter, Bool.or_eq_true, Bool.and_eq_true,
    decide_eq_true_iff] at hab hbc ⊢
  rcases hab with hab | ⟨hab1, hab2⟩
  · rcases hbc with hbc | ⟨hbc1, hbc2⟩
    · exact Or.inl (textLt_trans hbc hab)
    · exact Or.inl (hbc1 ▸ hab)
  · rcases hbc with hbc | ⟨hbc1, hbc2⟩
    · exact Or.inl (by rw [hab1]; exact hbc)
    · exact Or.inr ⟨hab1.trans hbc1, Nat.lt_trans hab2 hbc2⟩

theorem claimBetter_total {a b : IssueRow} (hne : a.id ≠ b.id) :
    claimBetter a b = true ∨ claimBetter b a = true := by
  simp only [claimBetter, Bool.or_eq_true, Bool.and_eq_true, decide_eq_true_iff]
  rcases textLt_total (claimSortKey a) (claimSortKey b) with h | h | h
  · exact Or.inr (Or.inl h)
  · exact Or.inl (Or.inl h)
  · rcases Nat.lt_or_ge a.id b.id with hid | hid
    · exact Or.inl (Or.inr ⟨h, hid⟩)
    · have : b.id < a.id := Nat.lt_of_le_of_ne hid (fun hx => hne hx.symm)
      exact Or.inr (Or.inr ⟨h.symm, this⟩)


theorem distinctIds_cons {x : IssueRow} {xs : List IssueRow}
    (h : distinctIdsB (x :: xs) = true) :
    (∀ q ∈ xs, q.id ≠ x.id) ∧ distinctIdsB xs = true := by
  unfold distinctIdsB at h
  rw [Bool.and_eq_true, List.all_eq_true] at h
  refine ⟨?_, h.2⟩
  intro q hq
  have := h.1 q hq
  simpa using this

theorem distinctIds_cons_intro {x : IssueRow} {xs : List IssueRow}
    (h1 : ∀ q ∈ xs, q.id ≠ x.id) (h2 : distinctIdsB xs = true) :
    distinctIdsB (x :: xs) = true := by
  unfold distinctIdsB
  rw [Bool.and_eq_true, List.all_eq_true]
  refine ⟨?_, h2⟩
  intro q hq
  simpa using h1 q hq

theorem distinctIds_filter_eligible {ns : String} {maxA : Int}
    {rows : List IssueRow} (hd : DistinctKeys rows) :
    distinctIdsB (rows.filter (claimEligible ns maxA)) = true := by
  induction rows with
  | nil => rfl
  | cons r rest ih =>
      obtain ⟨hhead, htail⟩ := distinctKeys_cons hd
      rw [List.filter_cons]
      by_cases he : claimEligible ns maxA r = true
      · simp only [he, if_true]
        refine distinctIds_cons_intro ?_ (ih htail)
        intro q hq hqid
        have hqmem := List.mem_of_mem_filter hq
        have hqe := List.of_mem_filter hq
        have hqr : q.repo = ns := (claimEligible_iff.mp hqe).1
        have hrr : r.repo = ns := (claimEligible_iff.mp he).1
        exact hhead q hqmem ⟨hqr.trans hrr.symm, hqid⟩
      · simp only [he, if_false]
        exact ih htail

theorem foldPick_best (l : List IssueRow) (a : IssueRow)
    (hd : distinctIdsB (a :: l) = true) :
    ∃ b, (l.foldl (fun acc q => match acc with
        | none => some q
        | some b => if claimBetter q b then some q else some b) (some a) = some b) ∧
      (b = a ∨ b ∈ l) ∧
      (∀ x, (x = a ∨ x ∈ l) → x = b ∨ claimBetter b x = true) := by
  induction l generalizing a with
  | nil =>
      refine ⟨a, rfl, Or.inl rfl, ?_⟩
      intro x hx
      rcases hx with rfl | hx
      · exact Or.inl rfl
      · cases hx
  | cons r l ih =>
      obtain ⟨hhead, htail⟩ := distinctIds_cons hd
      have hra : r.id ≠ a.id := hhead r (List.mem_cons_self r l)
      obtain ⟨hheadT, htailT⟩ := distinctIds_cons htail
      simp only [List.foldl_cons]
      by_cases hba : claimBetter r a = true
      · rw [if_pos hba]
        obtain ⟨b, hfold, hmem, hbest⟩ := ih r htail
        refine ⟨b, hfold, ?_, ?_⟩
        · rcases hmem with rfl | hmem
          · exact Or.inr (List.mem_cons_self b l)
          · exact Or.inr (List.mem_cons_of_mem r hmem)
        · intro x hx
          rcases hx with rfl | hx
          · rcases hbest r (Or.inl rfl) with rfl | hbr
            · exact Or.inr hba
            · exact Or.inr (claimBetter_trans hbr hba)
          · rcases List.mem_cons.mp hx with rfl | hx2
            · exact hbest x (Or.inl rfl)
            · exact hbest x (Or.inr hx2)
      · have hab : claimBetter a r = true := by
          rcases @claimBetter_total a r (fun hx => hra hx.symm) with h1 | h1
          · exact h1
          · exact absurd h1 hba
        rw [if_neg hba]
        have hdal : distinctIdsB (a :: l) = true := by
          refine distinctIds_cons_intro ?_ htailT
          intro q hq
          exact hhead q (List.mem_cons_of_mem r hq)
        obtain ⟨b, hfold, hmem, hbest⟩ := ih a hdal
        refine ⟨b, hfold, ?_, ?_⟩
        · rcases hmem with rfl | hmem
          · exact Or.inl rfl
          · exact Or.inr (List.mem_cons_of_mem r hmem)
        · intro x hx
          rcases hx with rfl | hx
          · exact hbest x (Or.inl rfl)
          · rcases List.mem_cons.mp hx with rfl | hx2
            · rcases hbest a (Or.inl rfl) with rfl | hbb
              · exact Or.inr hab
              · exact Or.inr (claimBetter_trans hbb hab)
            · exact hbest x (Or.inr hx2)

theorem selectTopPending_best {ns : String} {maxA : Int}
    {rows : List IssueRow} (hd : DistinctKeys rows) {r : IssueRow}
    (h : selectTopPending ns maxA rows = some r) :
    r ∈ rows ∧ claimEligible ns maxA r = true ∧
      ∀ q ∈ rows, claimEligible ns maxA q = true → q ≠ r →
        claimBetter r q = true := by
  have hfd := @distinctIds_filter_eligible ns maxA _ hd
  unfold selectTopPending at h
  cases hf : rows.filter (claimEligible ns maxA) with
  | nil =>
      rw [hf] at h
      simp at h
  | cons x xs =>
      rw [hf] at h hfd
      simp only [List.foldl_cons] at h
      obtain ⟨b, hfold, hmem, hbest⟩ := foldPick_best xs x hfd
      have hbr : b = r := Option.some.inj (hfold.symm.trans h)
      subst hbr
      have hbmem : b ∈ rows.filter (claimEligible ns maxA) := by
        rw [hf]
        rcases hmem with rfl | hmem
        · exact List.mem_cons_self b xs
        · exact List.mem_cons_of_mem x hmem
      refine ⟨List.mem_of_mem_filter hbmem, List.of_mem_filter hbmem, ?_⟩
      intro q hq hqe hqne
      have hqf : q ∈ rows.filter (claimEligible ns maxA) :=
        List.mem_filter.mpr ⟨hq, hqe⟩
      rw [hf] at hqf
      rcases List.mem_cons.mp hqf with rfl | hq2
      · rcases hbest q (Or.inl rfl) with rfl | hgood
        · exact absurd rfl hqne
        · exact hgood
      · rcases hbest q (Or.inr hq2) with rfl | hgood
        · exact absurd rfl hqne
        · exact hgood

/-- Claim C6: a successful claim_next_pending transitions exactly the
pending row with attempt_count below max_attempts that is greatest under
the order updated_at (falling back to created_at) descending with ties
broken by smallest id; within one namespace that order is total over the
eligible rows, so the choice is deterministic. -/
theorem c6_claim_order (ns w : String) (maxA : Int) (lu sa : String)
    (s : DbState) (hd : DistinctKeys s.issues) (rPost : IssueRow) (s1 : DbState)
    (hclaim : claimNextPending ns w maxA lu sa s = (some rPost, s1)) :
    ∃ rPre, rPre ∈ s.issues ∧ claimEligible ns maxA rPre = true ∧
      rPost = applyClaim sa lu w rPre ∧ rPost.status = "running" ∧
      s1.issues = s.issues.map (fun q =>
        if keyIs ns rPre.id q then applyClaim sa lu w q else q) ∧
      (∀ q ∈ s.issues, claimEligible ns maxA q = true → q ≠ rPre →
        claimBetter rPre q = true) ∧
      (∀ a ∈ s.issues, ∀ b ∈ s.issues, claimEligible ns maxA a = true →
        claimEligible ns maxA b = true → a ≠ b →
        (claimBetter a b = true ∨ claimBetter b a = true)) := by
  have htotal : ∀ a ∈ s.issues, ∀ b ∈ s.issues, claimEligible ns maxA a = true →
      claimEligible ns maxA b = true → a ≠ b →
      (claimBetter a b = true ∨ claimBetter b a = true) := by
    intro a ha b hb hae hbe hne
    have hida : a.repo = ns := (claimEligible_iff.mp hae).1
    have hidb : b.repo = ns := (claimEligible_iff.mp hbe).1
    have hidne : a.id ≠ b.id := by
      intro hx
      exact hne (distinct_eq_of_key hd ha hb (hida.trans hidb.symm) hx)
    exact claimBetter_total hidne
  unfold claimNextPending at hclaim
  cases hsel : selectTopPending ns maxA s.issues with
  | none =>
      rw [hsel] at hclaim
      simp at hclaim
  | some rr =>
      rw [hsel] at hclaim
      rw [Prod.mk.injEq] at hclaim
      obtain ⟨h1, h2⟩ := hclaim
      obtain ⟨hmem, helig, hbest⟩ := selectTopPending_best hd hsel
      refine ⟨rr, hmem, helig, (Option.some.inj h1).symm, ?_, ?_, hbest, htotal⟩
      · rw [← Option.some.inj h1]
        rfl
      · rw [← h2]

theorem c6_claim_order_witness :
    ∃ rPre, rPre ∈ (⟨[baseRow, baseRow2], []⟩ : DbState).issues ∧
      claimEligible "ns" 2 rPre = true ∧
      applyClaim "S" "L" "w" baseRow2 = applyClaim "S" "L" "w" rPre ∧
      (applyClaim "S" "L" "w" baseRow2).status = "running" ∧
      (⟨[baseRow, applyClaim "S" "L" "w" baseRow2], []⟩ : DbState).issues =
        (⟨[baseRow, baseRow2], []⟩ : DbState).issues.map (fun q =>
          if keyIs "ns" rPre.id q then applyClaim "S" "L" "w" q else q) ∧
      (∀ q ∈ (⟨[baseRow, baseRow2], []⟩ : DbState).issues,
        claimEligible "ns" 2 q = true → q ≠ rPre → claimBetter rPre q = true) ∧
      (∀ a ∈ (⟨[baseRow, baseRow2], []⟩ : DbState).issues,
        ∀ b ∈ (⟨[baseRow, baseRow2], []⟩ : DbState).issues,
        claimEligible "ns" 2 a = true → claimEligible "ns" 2 b = true → a ≠ b →
        (claimBetter a b = true ∨ claimBetter b a = true)) :=
  c6_claim_order "ns" "w" 2 "L" "S" ⟨[baseRow, baseRow2], []⟩ (by decide)
    (applyClaim "S" "L" "w" baseRow2)
    ⟨[baseRow, applyClaim "S" "L" "w" baseRow2], []⟩ (by decide)


theorem claimPendingBatch_len (ns w : String) (maxA : Int) (lu sa : String) :
    ∀ (fuel : Nat) (s : DbState),
      (claimPendingBatch ns w maxA lu sa fuel s).1.length ≤ fuel := by
  intro fuel
  induction fuel with
  | zero => intro s; simp [claimPendingBatch]
  | succ n ih =>
      intro s
      show (claimPendingBatch ns w maxA lu sa (n + 1) s).1.length ≤ n + 1
      unfold claimPendingBatch
      cases hc : claimNextPending ns w maxA lu sa s with
      | mk first snd =>
          cases first with
          | none => simp
          | some r =>
              simp only [List.length_cons]
              exact Nat.succ_le_succ (ih snd)

theorem claimNextPending_none_state {ns w : String} {maxA : Int} {lu sa : String}
    {s s2 : DbState} (h : claimNextPending ns w maxA lu sa s = (none, s2)) :
    s2 = s := by
  unfold claimNextPending at h
  cases hsel : selectTopPending ns maxA s.issues with
  | none =>
      rw [hsel] at h
      rw [Prod.mk.injEq] at h
      exact h.2.symm
  | some r =>
      rw [hsel] at h
      rw [Prod.mk.injEq] at h
      cases h.1

theorem claimPendingBatch_stop (ns w : String) (maxA : Int) (lu sa : String) :
    ∀ (fuel : Nat) (s : DbState),
      (claimPendingBatch ns w maxA lu sa fuel s).1.length < fuel →
      (claimNextPending ns w maxA lu sa
        (claimPendingBatch ns w maxA lu sa fuel s).2).1 = none := by
  intro fuel
  induction fuel with
  | zero => intro s h; cases h
  | succ n ih =>
      intro s h
      revert h
      show (claimPendingBatch ns w maxA lu sa (n + 1) s).1.length < n + 1 → _
      unfold claimPendingBatch
      cases hc : claimNextPending ns w maxA lu sa s with
      | mk first snd =>
          cases first with
          | none =>
              intro _
              have hs : snd = s := claimNextPending_none_state hc
              subst hs
              simp only
              rw [hc]
          | some r =>
              simp only [List.length_cons]
              intro h
              exact ih snd (Nat.lt_of_succ_lt_succ h)

/-- Claim C8: without a requested issue id, run_once returns
(processed = false, status = null) before any claim when the daily budget
is exhausted; otherwise it claims up to min(max(1, max_concurrent),
daily_remaining) pending issues in sequence, stopping at the first null
claim, and hands exactly that batch to processing. -/
theorem c8_run_once (cfg : DaemonConfig) (polled : List PolledIssue)
    (pollNow now today lu sa : String)
    (handler : IssueRow → DbState → CycleResult × DbState) (s : DbState) :
    (cfg.max_issues_per_day - getDailyDoneCount cfg.repo_namespace today s ≤ 0 →
      runOnceNoTarget cfg polled pollNow now today lu sa handler s =
        (⟨false, none⟩,
         (requeueExpiredLeases cfg.repo_namespace now
           (upsertPolledIssues cfg.repo_namespace pollNow polled s)).2)) ∧
    (0 < cfg.max_issues_per_day - getDailyDoneCount cfg.repo_namespace today s →
      ∃ batch finalState,
        claimPendingBatch cfg.repo_namespace cfg.worker_id cfg.max_attempts lu sa
          (min (max 1 cfg.max_concurrent)
            (cfg.max_issues_per_day -
              getDailyDoneCount cfg.repo_namespace today s)).toNat
          ((requeueExpiredLeases cfg.repo_namespace now
            (upsertPolledIssues cfg.repo_namespace pollNow polled s)).2) =
          (batch, finalState) ∧
        (batch.length : Int) ≤ min (max 1 cfg.max_concurrent)
          (cfg.max_issues_per_day - getDailyDoneCount cfg.repo_namespace today s) ∧
        (batch.length < (min (max 1 cfg.max_concurrent)
            (cfg.max_issues_per_day -
              getDailyDoneCount cfg.repo_namespace today s)).toNat →
          (claimNextPending cfg.repo_namespace cfg.worker_id cfg.max_attempts lu sa
            finalState).1 = none) ∧
        runOnceNoTarget cfg polled pollNow now today lu sa handler s =
          (if batch.isEmpty then ((⟨false, none⟩ : CycleResult), finalState)
           else processClaimedIssues handler batch finalState)) := by
  have hmeta : getDailyDoneCount cfg.repo_namespace today
      ((requeueExpiredLeases cfg.repo_namespace now
        (upsertPolledIssues cfg.repo_namespace pollNow polled s)).2) =
      getDailyDoneCount cfg.repo_namespace today s := rfl
  constructor
  · intro hle
    have hdr : dailyRemainingCapacity cfg today
        ((requeueExpiredLeases cfg.repo_namespace now
          (upsertPolledIssues cfg.repo_namespace pollNow polled s)).2) = 0 := by
      unfold dailyRemainingCapacity
      rw [hmeta]
      omega
    have hlim : claimLimitForCycle cfg today
        ((requeueExpiredLeases cfg.repo_namespace now
          (upsertPolledIssues cfg.repo_namespace pollNow polled s)).2) = 0 := by
      unfold claimLimitForCycle
      rw [hdr]
      simp
    unfold runOnceNoTarget
    dsimp only
    rw [hlim]
    simp
  · intro hgt
    have hdr : dailyRemainingCapacity cfg today
        ((requeueExpiredLeases cfg.repo_namespace now
          (upsertPolledIssues cfg.repo_namespace pollNow polled s)).2) =
        cfg.max_issues_per_day - getDailyDoneCount cfg.repo_namespace today s := by
      unfold dailyRemainingCapacity
      rw [hmeta]
      omega
    have hlim : claimLimitForCycle cfg today
        ((requeueExpiredLeases cfg.repo_namespace now
          (upsertPolledIssues cfg.repo_namespace pollNow polled s)).2) =
        min (max 1 cfg.max_concurrent)
          (cfg.max_issues_per_day - getDailyDoneCount cfg.repo_namespace today s) := by
      unfold claimLimitForCycle
      rw [hdr]
      rw [if_neg (by omega)]
    have hlimpos : 0 < min (max 1 cfg.max_concurrent)
        (cfg.max_issues_per_day - getDailyDoneCount cfg.repo_namespace today s) := by
      have h1 : (1 : Int) ≤ max 1 cfg.max_concurrent := le_max_left _ _
      omega
    refine ⟨(claimPendingBatch cfg.repo_namespace cfg.worker_id cfg.max_attempts lu sa
        (min (max 1 cfg.max_concurrent)
          (cfg.max_issues_per_day -
            getDailyDoneCount cfg.repo_namespace today s)).toNat
        ((requeueExpiredLeases cfg.repo_namespace now
          (upsertPolledIssues cfg.repo_namespace pollNow polled s)).2)).1,
      (claimPendingBatch cfg.repo_namespace cfg.worker_id cfg.max_attempts lu sa
        (min (max 1 cfg.max_concurrent)
          (cfg.max_issues_per_day -
            getDailyDoneCount cfg.repo_namespace today s)).toNat
        ((requeueExpiredLeases cfg.repo_namespace now
          (upsertPolledIssues cfg.repo_namespace pollNow polled s)).2)).2,
      rfl, ?_, ?_, ?_⟩
    · have hlen := claimPendingBatch_len cfg.repo_namespace cfg.worker_id
        cfg.max_attempts lu sa
        (min (max 1 cfg.max_concurrent)
          (cfg.max_issues_per_day -
            getDailyDoneCount cfg.repo_namespace today s)).toNat
        ((requeueExpiredLeases cfg.repo_namespace now
          (upsertPolledIssues cfg.repo_namespace pollNow polled s)).2)
      have hcast : ((min (max 1 cfg.max_concurrent)
          (cfg.max_issues_per_day -
            getDailyDoneCount cfg.repo_namespace today s)).toNat : Int) =
          min (max 1 cfg.max_concurrent)
            (cfg.max_issues_per_day - getDailyDoneCount cfg.repo_namespace today s) :=
        Int.toNat_of_nonneg (by omega)
      omega
    · exact claimPendingBatch_stop cfg.repo_namespace cfg.worker_id
        cfg.max_attempts lu sa _ _
    · unfold runOnceNoTarget
      dsimp only
      rw [hlim]
      rw [if_neg (by omega)]

theorem c8_run_once_witness :
    (0 : Int) < c8Cfg.max_issues_per_day -
      getDailyDoneCount c8Cfg.repo_namespace "D" emptyDb ∧
    (∃ batch finalState,
      claimPendingBatch c8Cfg.repo_namespace c8Cfg.worker_id c8Cfg.max_attempts "L" "S"
        (min (max 1 c8Cfg.max_concurrent)
          (c8Cfg.max_issues_per_day -
            getDailyDoneCount c8Cfg.repo_namespace "D" emptyDb)).toNat
        ((requeueExpiredLeases c8Cfg.repo_namespace "N"
          (upsertPolledIssues c8Cfg.repo_namespace "P" [c4Polled] emptyDb)).2) =
        (batch, finalState) ∧
      (batch.length : Int) ≤ min (max 1 c8Cfg.max_concurrent)
        (c8Cfg.max_issues_per_day -
          getDailyDoneCount c8Cfg.repo_namespace "D" emptyDb) ∧
      (batch.length < (min (max 1 c8Cfg.max_concurrent)
          (c8Cfg.max_issues_per_day -
            getDailyDoneCount c8Cfg.repo_namespace "D" emptyDb)).toNat →
        (claimNextPending c8Cfg.repo_namespace c8Cfg.worker_id c8Cfg.max_attempts "L" "S"
          finalState).1 = none) ∧
      runOnceNoTarget c8Cfg [c4Polled] "P" "N" "D" "L" "S" doneHandler emptyDb =
        (if batch.isEmpty then ((⟨false, none⟩ : CycleResult), finalState)
         else processClaimedIssues doneHandler batch finalState)) :=
  ⟨by decide,
   (c8_run_once c8Cfg [c4Polled] "P" "N" "D" "L" "S" doneHandler emptyDb).2 (by decide)⟩


end Scryer
